import Mathlib

/-!
Verification of the flask-trainings repository: a shallow embedding of
`src/BaaserowAutomationFile.py` and `src/app.py` in Lean 4, together with
theorems settling the specification claims about them.

Strings are modelled as `List Char` (`Str`); rows of the remote tables are
modelled as records or key-value lists matching exactly the fields the code
reads and writes; fallible Python code (assertions, uncaught exceptions)
is modelled with `Option` / `Except`.
-/

set_option maxHeartbeats 1000000

/-- Strings as lists of characters. -/
abbrev Str := List Char

/-- Convert a Lean string literal to the `Str` model. -/
def toL (s : String) : Str := s.data

/-- ASCII whitespace, modelling the character class removed by `str.strip()`. -/
def isSpaceChar (c : Char) : Bool :=
  c == ' ' || c == '\t' || c == '\n' || c == '\r'

/-- Remove trailing elements satisfying `p` (helper for `stripL`). -/
def dropEndWhile (p : Char → Bool) (s : Str) : Str :=
  ((s.reverse).dropWhile p).reverse

/-- Python `str.strip()`: remove leading and trailing whitespace. -/
def stripL (s : Str) : Str :=
  dropEndWhile isSpaceChar (s.dropWhile isSpaceChar)

/-- Is `pre` a prefix of `s`? (helper for substring search). -/
def hasPrefixL : Str → Str → Bool
  | [], _ => true
  | _ :: _, [] => false
  | a :: as, b :: bs => a == b && hasPrefixL as bs

/-- Python `needle in hay` on strings: substring containment. -/
def containsL (needle : Str) : Str → Bool
  | [] => needle.isEmpty
  | c :: rest => hasPrefixL needle (c :: rest) || containsL needle rest

/-- Numeric value of a digit character. -/
def digitVal (c : Char) : Nat := c.toNat - 48

/-- Model of Python `str.isnumeric()` on a single character (decimal digits). -/
def isDigitChar (c : Char) : Bool := 48 ≤ c.toNat && c.toNat ≤ 57

/-- Python `str.zfill(9)`: left-pad with zeros to length 9. -/
def zfill9 (s : Str) : Str := List.replicate (9 - s.length) '0' ++ s

/-- One term of the checksum loop in `_compute_id_control_digit`: even index
adds the digit; odd index adds `2*val` when `val < 5` and `(2*val) % 10 + 1`
otherwise, exactly as the source writes it. -/
def luhnTerm (i v : Nat) : Nat :=
  if i % 2 = 0 then v
  else if v < 5 then 2 * v
  else (2 * v) % 10 + 1

/-- `_compute_id_control_digit` from `BaaserowAutomationFile.py`: pads the id
to 9 characters, asserts it is 9 numeric characters (`none` models the
`AssertionError`), and returns the complement modulo 10 of the weighted digit
sum. -/
def compute_id_control_digit (id_num : Str) : Option Nat :=
  let p := zfill9 id_num
  if p.length == 9 && p.all isDigitChar then
    let total := (p.enum.map (fun q => luhnTerm q.1 (digitVal q.2))).sum
    some ((10 - total % 10) % 10)
  else
    none

/-- One term of the checksum as the specification words it: at odd indices the
doubled digit when the doubled value is below 10, otherwise the doubled value
minus 9. -/
def specLuhnTerm (i v : Nat) : Nat :=
  if i % 2 = 0 then v
  else if 2 * v < 10 then 2 * v
  else 2 * v - 9

/-- The check digit as the specification describes it, over the digit values:
`(10 - T) mod 10` where `T` is the positional sum taken mod 10. -/
def specCheckDigit (ds : List Nat) : Nat :=
  (10 - (ds.enum.map (fun q => specLuhnTerm q.1 q.2)).sum % 10) % 10

/-- An insertion-ordered Python dict from strings to lists of strings,
as used for `phone_to_field` and `phones_to_names`. -/
abbrev DictS := List (Str × List Str)

/-- Python `dic[k]`, defaulting to the empty list when `k` is absent
(absent keys and present-but-empty lists behave identically everywhere
these dicts are used). -/
def dGet (d : DictS) (k : Str) : List Str :=
  match d.find? (fun p => p.1 == k) with
  | some p => p.2
  | none => []

/-- Python `k in dic`. -/
def dHas (d : DictS) (k : Str) : Bool :=
  (d.find? (fun p => p.1 == k)).isSome

/-- Append `vs` to `dic[k]`, creating the key at the end when absent: the
shape of both `phones_to_names[phone].append(name)` (with `vs = [name]`)
and `_add_to_dict_if_not_empty`'s extend. -/
def dictExtend (d : DictS) (k : Str) (vs : List Str) : DictS :=
  if dHas d k then
    d.map (fun p => if p.1 == k then (p.1, p.2 ++ vs) else p)
  else
    d ++ [(k, vs)]

/-- `_add_to_dict_if_not_empty`: extend `dic[k]` by `vs` unless `vs` is empty
(in which case the key is not even created). -/
def add_to_dict_if_not_empty (k : Str) (vs : List Str) (d : DictS) : DictS :=
  if vs = [] then d else dictExtend d k vs

/-- A row as seen by `find_duplicates`: its normalized phone number and its
name field. -/
structure DupRow where
  phone : Str
  name : Str
deriving DecidableEq

/-- `BaserowAutomations.find_duplicates`: group names by normalized phone
number, then delete every group with fewer than 2 entries. -/
def find_duplicates (rows : List DupRow) : DictS :=
  let m := rows.foldl (fun m r => dictExtend m r.phone [r.name]) []
  m.filter (fun p => decide (2 ≤ p.2.length))

/-- The names (in row order) of all rows carrying phone `P`. -/
def namesOf (rows : List DupRow) (P : Str) : List Str :=
  (rows.filter (fun r => r.phone == P)).map (fun r => r.name)

/-- The keys of a dict, in order. -/
def keysOf (m : DictS) : List Str := m.map (fun p => p.1)

/-- A row of the registration (source) table: a mapping from column names to
field values, as the builder iterates `row.fields`. -/
structure Row where
  fields : List (Str × Str)
deriving DecidableEq

/-- Python `row[k]` on a source row. -/
def Row.get (r : Row) (k : Str) : Str :=
  match r.fields.find? (fun p => p.1 == k) with
  | some p => p.2
  | none => []

/-- The column names of `r` that contain `field_name` as a substring:
the list comprehension `[k for k in row.fields if field_name in k]`. -/
def colMatches (field_name : Str) (r : Row) : List Str :=
  (r.fields.map (fun p => p.1)).filter (fun k => containsL field_name k)

/-- The fuzzy column lookup of `_build_phone_to_field_dict_from_table_rows`:
exactly one column name must contain `field_name`; zero or several matches
raise a `KeyError`, modelled as `Except.error`. -/
def findFieldFullName (field_name : Str) (r : Row) : Except String Str :=
  match colMatches field_name r with
  | [] => Except.error "KeyError: no column contains the field name"
  | [k] => Except.ok k
  | _ => Except.error "KeyError: too many columns contain the field name"

/-- `_build_phone_to_field_dict_from_table_rows`: builds the map from
normalized phone numbers to the list of source-field values, propagating the
uncaught `KeyError` of the column lookup. -/
def build_phone_to_field_dict_from_table_rows (field_name : Str)
    (table_rows : List Row) : Except String DictS :=
  table_rows.foldlM (fun d row => do
    let field_full_name ← findFieldFullName field_name row
    let field_content := row.get field_full_name
    let phone_num := row.get (toL "_NormalizedPhoneNumber")
    if !field_content.isEmpty then
      pure (dictExtend d phone_num [field_content])
    else
      pure d) []

/-- The literal " , " separator used to split and join field values. -/
def sepStr : Str := [' ', ',', ' ']

/-- Python `' , '.join(vs)`. -/
def joinSep : List Str → Str
  | [] => []
  | [v] => v
  | v :: w :: rest => v ++ sepStr ++ joinSep (w :: rest)

/-- Worker for `splitSep`: scan for the separator, accumulating the current
chunk in reverse. -/
def splitSepGo (acc : Str) : Str → List Str
  | [] => [acc.reverse]
  | c :: rest =>
    if hasPrefixL sepStr (c :: rest) then
      acc.reverse :: splitSepGo [] (rest.drop 2)
    else
      splitSepGo (c :: acc) rest
termination_by s => s.length
decreasing_by
  all_goals simp only [List.length_cons, List.length_drop]
  all_goals omega

/-- Python `s.split(' , ')`. -/
def splitSep (s : Str) : List Str := splitSepGo [] s

/-- The dedup step `list(set([url.strip() for url in vs if url]))`: drop
values that are empty BEFORE stripping, strip the rest, and deduplicate. -/
def dedupStrip (vs : List Str) : List Str :=
  ((vs.filter (fun u => !u.isEmpty)).map stripL).dedup

/-- Replace `dic[k]` by its deduplicated form when the key is present
(`if phone in phone_to_field_dict: ... = list(set(...))`). -/
def dictDedupAt (d : DictS) (k : Str) : DictS :=
  if dHas d k then
    d.map (fun p => if p.1 == k then (p.1, dedupStrip p.2) else p)
  else d

/-- A row of the activists (target) table as the fill uses it: its
normalized phone number and the current content of the target field. -/
structure ActRow where
  phone : Str
  value : Str
deriving DecidableEq

/-- The server-side fetch filters of the fill: normalized phone non-empty,
and — unless `full_run` — target field empty. -/
def rowFilter (full_run : Bool) (r : ActRow) : Bool :=
  r.phone != [] && (full_run || r.value == [])

/-- The values returned by the optional `additional_query_function`. -/
def qVals (q : Option (Str → List Str)) (phone : Str) : List Str :=
  match q with
  | some f => f phone
  | none => []

/-- The per-row dict mutations of the fill loop: add the supplementary query
values, add the row's own split field content when non-empty, then
deduplicate the phone's entry. -/
def procRow (q : Option (Str → List Str)) (d : DictS) (r : ActRow) : DictS :=
  let d1 :=
    match q with
    | some f => add_to_dict_if_not_empty r.phone (f r.phone) d
    | none => d
  let d2 :=
    if r.value.isEmpty then d1
    else add_to_dict_if_not_empty r.phone (splitSep r.value) d1
  dictDedupAt d2 r.phone

/-- The row scan of `_fill_field_from_registration_to_activists`: threads the
phone dict through the (filtered) target rows, writing the joined merged
list when it is non-empty. `updOk i` tells whether row `i`'s
`update_row_safe` persists (a failure is caught and leaves the stored value
unchanged). Returns the resulting target table and the write log
(row index, merged list written). -/
def fillGo (q : Option (Str → List Str)) (full_run : Bool) (updOk : Nat → Bool) :
    Nat → DictS → List ActRow → List ActRow × List (Nat × List Str)
  | _, _, [] => ([], [])
  | i, d, r :: rest =>
    if rowFilter full_run r then
      let d3 := procRow q d r
      let vs := dGet d3 r.phone
      if dHas d3 r.phone && !vs.isEmpty then
        let r' := if updOk i then { r with value := joinSep vs } else r
        let res := fillGo q full_run updOk (i + 1) d3 rest
        (r' :: res.1, (i, vs) :: res.2)
      else
        let res := fillGo q full_run updOk (i + 1) d3 rest
        (r :: res.1, res.2)
    else
      let res := fillGo q full_run updOk (i + 1) d rest
      (r :: res.1, res.2)

/-- `_fill_field_from_registration_to_activists`: build the phone dict from
the registration rows (uncaught `KeyError` aborts the whole fill before any
target row is touched), then scan the target rows. -/
def fill_field_from_registration_to_activists (registration_field : Str)
    (regRows : List Row) (acts : List ActRow) (full_run : Bool)
    (q : Option (Str → List Str)) (updOk : Nat → Bool) :
    Except String (List ActRow × List (Nat × List Str)) := do
  let phone_to_field_dict ←
    build_phone_to_field_dict_from_table_rows registration_field regRows
  pure (fillGo q full_run updOk 0 phone_to_field_dict acts)

/-- Membership in the non-empty strip closure of a value list: `x` is a
non-empty string obtained by stripping some originally non-empty member. -/
def nESmem (L : List Str) (x : Str) : Prop :=
  x ≠ [] ∧ ∃ y ∈ L, y ≠ [] ∧ stripL y = x

/-- `P` has at least one "real" (non-empty after stripping) value available
from the base dict or the supplementary query. -/
def hasRealP (base : DictS) (q : Option (Str → List Str)) (P : Str) : Prop :=
  ∃ x, nESmem (dGet base P ++ qVals q P) x

/-- The invariant threaded through a fill scan: the dict's non-empty strip
closure at every phone (together with that phone's query values) never
changes from its base value. -/
def Jinv (q : Option (Str → List Str)) (base d : DictS) : Prop :=
  ∀ P x, nESmem (dGet d P ++ qVals q P) x ↔ nESmem (dGet base P ++ qVals q P) x

/-- A target row is stable under a (non-full) fill scan: it is filtered out,
its update cannot persist, or its phone has no real value to write. -/
def stableRow (base : DictS) (q : Option (Str → List Str)) (updOk : Nat → Bool)
    (i : Nat) (r : ActRow) : Prop :=
  r.phone = [] ∨ r.value ≠ [] ∨ updOk i = false ∨ ¬ hasRealP base q r.phone

/-- All rows of a list are stable, indexed from `i`. -/
def StableList (base : DictS) (q : Option (Str → List Str)) (updOk : Nat → Bool) :
    Nat → List ActRow → Prop
  | _, [] => True
  | i, r :: rest => stableRow base q updOk i r ∧ StableList base q updOk (i + 1) rest

/-- `row.update()`: the raw remote write, which raises on failure (`ok` is
the oracle telling whether this row's update succeeds). -/
def updateRow (ok : Bool) : Except String Unit :=
  if ok then Except.ok () else Except.error "update failed"

/-- `BaserowAutomations.update_row_safe`: attempt the update, catch any
failure and merely log it. -/
def update_row_safe (ok : Bool) : Except String Unit :=
  match updateRow ok with
  | Except.ok _ => Except.ok ()
  | Except.error _ => Except.ok ()

/-- A row of the activists table as `validate_ids` uses it: the national id
field and the id-valid marker field. -/
structure ValRow where
  id : Str
  valid : Str
deriving DecidableEq

/-- The fetch filters of `validate_ids`: id-valid marker empty and id
non-empty. -/
def valFilter (r : ValRow) : Bool := r.valid == [] && r.id != []

/-- The row scan of `validate_ids`: on an assertion error skip the row; else
mark valid when the control digit is 0, invalid otherwise, and update via
`update_row_safe` (`updOk i` tells whether row `i`'s update persists). -/
def validateGo (updOk : Nat → Bool) : Nat → List ValRow → Except String (List ValRow)
  | _, [] => Except.ok []
  | i, r :: rest =>
    if valFilter r then
      match compute_id_control_digit r.id with
      | none => do
          let rest' ← validateGo updOk (i + 1) rest
          pure (r :: rest')
      | some v => do
          let newVal := if v ≠ 0 then toL "לא" else toL "כן"
          update_row_safe (updOk i)
          let r' := if updOk i then { r with valid := newVal } else r
          let rest' ← validateGo updOk (i + 1) rest
          pure (r' :: rest')
    else do
      let rest' ← validateGo updOk (i + 1) rest
      pure (r :: rest')

/-- `BaserowAutomations.validate_ids`. -/
def validate_ids (updOk : Nat → Bool) (table : List ValRow) :
    Except String (List ValRow) :=
  validateGo updOk 0 table

/-- A row of the activists table as `fill_name_by_id` uses it: the id field
and the two name fields written from the two lookup engines. -/
structure NameRow where
  id : Str
  rish : Str
  elec : Str
deriving DecidableEq

/-- The value written from one engine's query: `"{first} {last}"` from the
first result, or the literal "NOT FOUND" when there is no result. -/
def engineVal (f : Str → List (Str × Str)) (idn : Str) : Str :=
  match f idn with
  | [] => toL "NOT FOUND"
  | (firstName, lastName) :: _ => firstName ++ ' ' :: lastName

/-- The fetch filters of `fill_name_by_id`: id non-empty always; the
engine-specific empty-name filter is added only when exactly one engine is
supplied. -/
def nameFilter (rishSome elecSome : Bool) (r : NameRow) : Bool :=
  r.id != [] &&
    (if rishSome && !elecSome then r.rish == []
     else if !rishSome && elecSome then r.elec == []
     else true)

/-- The per-row engine loop of `fill_name_by_id`: for each supplied engine in
order, set the row object's field and call `update_row_safe` (a successful
update persists all changed fields of the row object). Returns the remote
row state and the write log (row index, engine tag 0/1, value written). -/
def processNameRow (rish elec : Option (Str → List (Str × Str)))
    (ok1 ok2 : Bool) (i : Nat) (r : NameRow) :
    Except String (NameRow × List (Nat × Nat × Str)) := do
  let s1 ←
    (match rish with
     | some f => do
        let v := engineVal f r.id
        let obj := { r with rish := v }
        update_row_safe ok1
        pure (obj, if ok1 then obj else r, [((i, 0, v) : Nat × Nat × Str)])
     | none => pure (r, r, ([] : List (Nat × Nat × Str))))
  match elec with
  | some f => do
      let v := engineVal f r.id
      let obj2 := { s1.1 with elec := v }
      update_row_safe ok2
      pure (if ok2 then obj2 else s1.2.1, s1.2.2 ++ [(i, 1, v)])
  | none => pure (s1.2.1, s1.2.2)

/-- The row scan of `fill_name_by_id`: skip rows failing the fetch filter,
skip rows whose checksum raises or is non-zero, process the rest. -/
def fillNameGo (rish elec : Option (Str → List (Str × Str)))
    (updOk : Nat → Nat → Bool) :
    Nat → List NameRow → Except String (List NameRow × List (Nat × Nat × Str))
  | _, [] => Except.ok ([], [])
  | i, r :: rest =>
    if nameFilter rish.isSome elec.isSome r then
      match compute_id_control_digit r.id with
      | none => do
          let res ← fillNameGo rish elec updOk (i + 1) rest
          pure (r :: res.1, res.2)
      | some v =>
        if v ≠ 0 then do
          let res ← fillNameGo rish elec updOk (i + 1) rest
          pure (r :: res.1, res.2)
        else do
          let pr ← processNameRow rish elec (updOk i 0) (updOk i 1) i r
          let res ← fillNameGo rish elec updOk (i + 1) rest
          pure (pr.1 :: res.1, pr.2 ++ res.2)
    else do
      let res ← fillNameGo rish elec updOk (i + 1) rest
      pure (r :: res.1, res.2)

/-- `BaserowAutomations.fill_name_by_id`: with neither engine supplied it
returns before fetching anything; otherwise it scans the filtered rows. -/
def fill_name_by_id (rish elec : Option (Str → List (Str × Str)))
    (updOk : Nat → Nat → Bool) (table : List NameRow) :
    Except String (List NameRow × List (Nat × Nat × Str)) :=
  if rish.isNone && elec.isNone then Except.ok (table, [])
  else fillNameGo rish elec updOk 0 table

/-- The conditions claimed of every write of `fill_name_by_id`: the target
row exists, has a non-empty checksum-valid id, the single-engine empty-name
filters held, and the written value is the engine's formatted result. -/
def nameWriteOk (rish elec : Option (Str → List (Str × Str)))
    (table : List NameRow) (w : Nat × Nat × Str) : Prop :=
  ∃ r, table.get? w.1 = some r ∧ r.id ≠ [] ∧
    compute_id_control_digit r.id = some 0 ∧
    (elec = none → r.rish = []) ∧
    (rish = none → r.elec = []) ∧
    (w.2.1 = 0 → ∃ f, rish = some f ∧ w.2.2 = engineVal f r.id) ∧
    (w.2.1 = 1 → ∃ f, elec = some f ∧ w.2.2 = engineVal f r.id)

/-- A row of the recruitment table: its phone field and its back-reference
link field. -/
structure RecRow where
  phone : Str
  linked : List Nat
deriving DecidableEq

/-- A row of the activists table as the linker uses it: row id, normalized
phone, and the recruitment-candidate marker field. -/
structure LinkActRow where
  rid : Nat
  phone : Str
  candidate : Str
deriving DecidableEq

/-- Python dict assignment `m[k] = v` (last assignment wins). -/
def dictPut (m : List (Str × Nat)) (k : Str) (v : Nat) : List (Str × Nat) :=
  if (m.find? (fun p => p.1 == k)).isSome then
    m.map (fun p => if p.1 == k then (p.1, v) else p)
  else m ++ [(k, v)]

/-- Lookup in the phone-to-index map. -/
def mGet? (m : List (Str × Nat)) (k : Str) : Option Nat :=
  (m.find? (fun p => p.1 == k)).map (fun p => p.2)

/-- `{r['טלפון'].strip(): i for i, r in enumerate(recruitment_rows)}`. -/
def recPhoneMap (recs : List RecRow) : List (Str × Nat) :=
  recs.enum.foldl (fun m p => dictPut m (stripL p.2.phone) p.1) []

/-- Write the back-reference field of the recruitment row at index `j`. -/
def setLinked : List RecRow → Nat → List Nat → List RecRow
  | [], _, _ => []
  | r :: rs, 0, v => { r with linked := v } :: rs
  | r :: rs, j + 1, v => r :: setLinked rs j v

/-- The row scan of `link_activists_and_recruitments`: for each activist with
a non-empty normalized phone, when the phone is a recruitment phone the
matching recruitment row's back-reference is set and updated DIRECTLY via
`row.update()` (its failure propagates), then the activist's candidate
marker is written via `update_row_safe` (its failure is caught). -/
def linkGo (recOk actOk : Nat → Bool) (phones : List (Str × Nat)) :
    Nat → List RecRow → List LinkActRow →
      Except String (List RecRow × List LinkActRow)
  | _, recs, [] => Except.ok (recs, [])
  | i, recs, r :: rest =>
    if r.phone != [] then
      match mGet? phones r.phone with
      | some j => do
          let obj := { r with candidate := toL "כן" }
          let recs' := setLinked recs j [r.rid]
          updateRow (recOk j)
          update_row_safe (actOk i)
          let act' := if actOk i then obj else r
          let res ← linkGo recOk actOk phones (i + 1) recs' rest
          pure (res.1, act' :: res.2)
      | none => do
          let obj := { r with candidate := toL "לא" }
          update_row_safe (actOk i)
          let act' := if actOk i then obj else r
          let res ← linkGo recOk actOk phones (i + 1) recs rest
          pure (res.1, act' :: res.2)
    else do
      let res ← linkGo recOk actOk phones (i + 1) recs rest
      pure (res.1, r :: res.2)

/-- `BaserowAutomations.link_activists_and_recruitments`. -/
def link_activists_and_recruitments (recOk actOk : Nat → Bool)
    (recs : List RecRow) (acts : List LinkActRow) :
    Except String (List RecRow × List LinkActRow) :=
  linkGo recOk actOk (recPhoneMap recs) 0 recs acts

/-- A calendar date (year, month, day). -/
structure DateD where
  y : Nat
  m : Nat
  d : Nat
deriving DecidableEq

/-- A parsed timestamp: calendar date plus time of day and microseconds. -/
structure DateTimeD where
  date : DateD
  hh : Nat
  mi : Nat
  ss : Nat
  us : Nat
deriving DecidableEq

/-- Gregorian leap year. -/
def isLeapYear (y : Nat) : Bool :=
  y % 4 == 0 && (y % 100 != 0 || y % 400 == 0)

/-- Days in a month. -/
def daysInMonth (y m : Nat) : Nat :=
  if m == 2 then (if isLeapYear y then 29 else 28)
  else if m == 4 || m == 6 || m == 9 || m == 11 then 30
  else 31

/-- `datetime(...)` construction: validates the calendar ranges that
`datetime.strptime` enforces before returning. -/
def mkDateTime (y m d hh mi ss us : Nat) : Option DateTimeD :=
  if 1 ≤ y ∧ y ≤ 9999 ∧ 1 ≤ m ∧ m ≤ 12 ∧ 1 ≤ d ∧ d ≤ daysInMonth y m ∧
      hh ≤ 23 ∧ mi ≤ 59 ∧ ss ≤ 59 ∧ us ≤ 999999 then
    some ⟨⟨y, m, d⟩, hh, mi, ss, us⟩
  else none

/-- Take up to `k` leading digit characters. -/
def takeDigits : Nat → Str → Str × Str
  | 0, s => ([], s)
  | _ + 1, [] => ([], [])
  | k + 1, c :: rest =>
    if isDigitChar c then
      let p := takeDigits k rest
      (c :: p.1, p.2)
    else ([], c :: rest)

/-- Decimal value of a digit string. -/
def digitsToNat (ds : Str) : Nat := ds.foldl (fun a c => a * 10 + digitVal c) 0

/-- A numeric strptime directive taking 1 to `maxD` digits with an inclusive
value range. -/
def parseNum (maxD lo hi : Nat) (s : Str) : Option (Nat × Str) :=
  let p := takeDigits maxD s
  if p.1 = [] then none
  else
    let v := digitsToNat p.1
    if lo ≤ v ∧ v ≤ hi then some (v, p.2) else none

/-- A numeric strptime directive taking exactly `k` digits (`%Y`). -/
def parseExact (k : Nat) (s : Str) : Option (Nat × Str) :=
  let p := takeDigits k s
  if p.1.length = k then some (digitsToNat p.1, p.2) else none

/-- `%f`: 1-6 fractional digits, scaled to microseconds. -/
def parseFrac (s : Str) : Option (Nat × Str) :=
  let p := takeDigits 6 s
  if p.1 = [] then none
  else some (digitsToNat p.1 * 10 ^ (6 - p.1.length), p.2)

/-- Match one literal character of the format string. -/
def expectChar (c : Char) : Str → Option Str
  | x :: rest => if x == c then some rest else none
  | [] => none

/-- `%p`: AM or PM, case-insensitive; returns true for PM. -/
def parseAmPm : Str → Option (Bool × Str)
  | a :: b :: rest =>
    if (a == 'A' || a == 'a') && (b == 'M' || b == 'm') then some (false, rest)
    else if (a == 'P' || a == 'p') && (b == 'M' || b == 'm') then some (true, rest)
    else none
  | _ => none

/-- strptime with format "%m/%d/%Y %I:%M%p". -/
def parseFormat1 (s : Str) : Option DateTimeD := do
  let (mo, s) ← parseNum 2 1 12 s
  let s ← expectChar '/' s
  let (d, s) ← parseNum 2 1 31 s
  let s ← expectChar '/' s
  let (y, s) ← parseExact 4 s
  let s ← expectChar ' ' s
  let (ih, s) ← parseNum 2 1 12 s
  let s ← expectChar ':' s
  let (mi, s) ← parseNum 2 0 59 s
  let (pm, s) ← parseAmPm s
  let hh := ih % 12 + (if pm then 12 else 0)
  if s = [] then mkDateTime y mo d hh mi 0 0 else none

/-- strptime with format "%Y-%m-%dT%H:%M:%S.%fZ". -/
def parseFormat2 (s : Str) : Option DateTimeD := do
  let (y, s) ← parseExact 4 s
  let s ← expectChar '-' s
  let (mo, s) ← parseNum 2 1 12 s
  let s ← expectChar '-' s
  let (d, s) ← parseNum 2 1 31 s
  let s ← expectChar 'T' s
  let (hh, s) ← parseNum 2 0 23 s
  let s ← expectChar ':' s
  let (mi, s) ← parseNum 2 0 59 s
  let s ← expectChar ':' s
  let (ss, s) ← parseNum 2 0 61 s
  let s ← expectChar '.' s
  let (us, s) ← parseFrac s
  let s ← expectChar 'Z' s
  if s = [] then mkDateTime y mo d hh mi ss us else none

/-- strptime with format "%Y-%m-%dT%H:%M:%SZ". -/
def parseFormat3 (s : Str) : Option DateTimeD := do
  let (y, s) ← parseExact 4 s
  let s ← expectChar '-' s
  let (mo, s) ← parseNum 2 1 12 s
  let s ← expectChar '-' s
  let (d, s) ← parseNum 2 1 31 s
  let s ← expectChar 'T' s
  let (hh, s) ← parseNum 2 0 23 s
  let s ← expectChar ':' s
  let (mi, s) ← parseNum 2 0 59 s
  let s ← expectChar ':' s
  let (ss, s) ← parseNum 2 0 61 s
  let s ← expectChar 'Z' s
  if s = [] then mkDateTime y mo d hh mi ss 0 else none

/-- `parse_date` from `app.py`: try the three known formats in order; the
first success wins; `none` models the logged skip. -/
def parse_date (date_str : Str) : Option DateTimeD :=
  match parseFormat1 date_str with
  | some dt => some dt
  | none =>
    match parseFormat2 date_str with
    | some dt => some dt
    | none => parseFormat3 date_str

/-- `date.today() - relativedelta(months=2)`: subtract two months, clamping
the day to the target month's length. -/
def subTwoMonths (t : DateD) : DateD :=
  if 2 < t.m then
    ⟨t.y, t.m - 2, min t.d (daysInMonth t.y (t.m - 2))⟩
  else
    ⟨t.y - 1, t.m + 10, min t.d (daysInMonth (t.y - 1) (t.m + 10))⟩

/-- Strict calendar-date comparison. -/
def dateLt (a b : DateD) : Bool :=
  a.y < b.y || (a.y == b.y && (a.m < b.m || (a.m == b.m && a.d < b.d)))

/-- A registration row as the report uses it: the "Submission Time" field
and the training-name field. -/
structure RegRow where
  submission : Str
  training : Str
deriving DecidableEq

/-- `if training not in dic: dic[training] = 1 else: dic[training] += 1`. -/
def bump (d : List (Str × Nat)) (k : Str) : List (Str × Nat) :=
  if (d.find? (fun p => p.1 == k)).isSome then
    d.map (fun p => if p.1 == k then (p.1, p.2 + 1) else p)
  else d ++ [(k, 1)]

/-- The loop of `getTrainingParticipantCounts`: skip unparseable submission
times, skip entries dated strictly before two months ago, tally the rest by
training name. -/
def reportGo (today : DateD) : List (Str × Nat) → List RegRow → List (Str × Nat)
  | dic, [] => dic
  | dic, reg :: rest =>
    match parse_date reg.submission with
    | none => reportGo today dic rest
    | some dt =>
      if dateLt dt.date (subTwoMonths today) then reportGo today dic rest
      else reportGo today (bump dic reg.training) rest

/-- `getTrainingParticipantCounts` from `app.py`, with "today" passed
explicitly. -/
def getTrainingParticipantCounts (today : DateD) (regs : List RegRow) :
    List (Str × Nat) :=
  reportGo today [] regs

/-- The count stored for a training name (0 when absent). -/
def countGet (d : List (Str × Nat)) (t : Str) : Nat :=
  match d.find? (fun p => p.1 == t) with
  | some p => p.2
  | none => 0

/-- A registration the report keeps, as the specification words it: its
submission time parses under some known format and its date is not strictly
older than two months before today. -/
def keptReg (today : DateD) (reg : RegRow) : Bool :=
  match parse_date reg.submission with
  | none => false
  | some dt => !dateLt dt.date (subTwoMonths today)

/-- A row of the activists table as `fill_birthday_by_id` uses it: the id
field, the rishumon name field, the id-valid single-select marker, and the
rishumon birthdate field. -/
structure BdRow where
  id : Str
  rishName : Str
  valid : Str
  bdate : Str
deriving DecidableEq

/-- The fetch filters of `fill_birthday_by_id`: rishumon name not equal to
"NOT FOUND", and the id-valid single-select equal to the 'כן' option. -/
def bdFilter (r : BdRow) : Bool :=
  r.rishName != toL "NOT FOUND" && r.valid == toL "כן"

/-- `f'{bd[0:4]}-{bd[4:6]}-{bd[6:8]}'`: reformat the 8-digit YYYYMMDD string
as YYYY-MM-DD. -/
def formatBDate (bd : Str) : Str :=
  bd.take 4 ++ '-' :: (bd.drop 4).take 2 ++ '-' :: (bd.drop 6).take 2

/-- The row scan of `fill_birthday_by_id`: query the rishumon engine by id
(the engine returns the `BDate` strings of its results); when there is a
result, write the reformatted birthdate and update via `update_row_safe`
(`updOk i` tells whether row `i`'s update persists). -/
def fillBirthdayGo (engine : Str → List Str) (updOk : Nat → Bool) :
    Nat → List BdRow → Except String (List BdRow)
  | _, [] => Except.ok []
  | i, r :: rest =>
    if bdFilter r then
      match engine r.id with
      | [] => do
          let rest' ← fillBirthdayGo engine updOk (i + 1) rest
          pure (r :: rest')
      | bd :: _ => do
          update_row_safe (updOk i)
          let r' := if updOk i then { r with bdate := formatBDate bd } else r
          let rest' ← fillBirthdayGo engine updOk (i + 1) rest
          pure (r' :: rest')
    else do
      let rest' ← fillBirthdayGo engine updOk (i + 1) rest
      pure (r :: rest')

/-- `BaserowAutomations.fill_birthday_by_id`. -/
def fill_birthday_by_id (engine : Str → List Str) (updOk : Nat → Bool)
    (table : List BdRow) : Except String (List BdRow) :=
  fillBirthdayGo engine updOk 0 table

-- THEOREMS

theorem dGet_nil (k : Str) : dGet [] k = [] := rfl

theorem dGet_of_not_key (d : DictS) (k : Str)
    (h : ∀ p ∈ d, p.1 ≠ k) : dGet d k = [] := by
  unfold dGet
  have : d.find? (fun p => p.1 == k) = none := by
    rw [List.find?_eq_none]
    intro p hp
    simp only [beq_eq_false_iff_ne, ne_eq, Bool.not_eq_true, beq_eq_false_iff_ne]
    exact h p hp
  rw [this]

theorem dHas_false_dGet (d : DictS) (k : Str) (h : dHas d k = false) :
    dGet d k = [] := by
  unfold dHas at h
  unfold dGet
  cases hf : d.find? (fun p => p.1 == k) with
  | none => rfl
  | some p => rw [hf] at h; simp at h

theorem dGet_map_extendEntry (d : DictS) (k k' : Str) (vs : List Str) :
    dGet (d.map (fun p => if p.1 == k then (p.1, p.2 ++ vs) else p)) k' =
      (match d.find? (fun p => p.1 == k') with
       | some p => if p.1 == k then p.2 ++ vs else p.2
       | none => []) := by
  unfold dGet
  rw [List.find?_map]
  have hcomp : ((fun p : Str × List Str => p.1 == k') ∘
      (fun p => if p.1 == k then (p.1, p.2 ++ vs) else p)) =
      (fun p : Str × List Str => p.1 == k') := by
    funext p
    by_cases h : p.1 = k <;> simp [h]
  rw [hcomp]
  cases hf : d.find? (fun p => p.1 == k') with
  | none => rfl
  | some p =>
    simp only [Option.map_some]
    by_cases h : p.1 = k <;> simp [h]

theorem dGet_dictExtend (d : DictS) (k k' : Str) (vs : List Str) :
    dGet (dictExtend d k vs) k' =
      dGet d k' ++ (if k' = k then vs else []) := by
  unfold dictExtend
  cases hhas : dHas d k with
  | true =>
    simp only [hhas, if_true]
    rw [dGet_map_extendEntry]
    unfold dGet
    cases hf : d.find? (fun p => p.1 == k') with
    | none =>
      have hne : k' ≠ k := by
        intro hk
        subst hk
        unfold dHas at hhas
        rw [hf] at hhas
        simp at hhas
      simp [hne]
    | some p =>
      have hp : p.1 = k' := by
        have := List.find?_some hf
        rwa [beq_iff_eq] at this
      by_cases hk : k' = k
      · have hb : (p.1 == k) = true := by rw [beq_iff_eq, hp]; exact hk
        simp [hb, hk]
      · have hb : (p.1 == k) = false := by
          rw [beq_eq_false_iff_ne, hp]
          exact hk
        simp [hb, hk]
  | false =>
    simp only [hhas, Bool.false_eq_true, if_false]
    unfold dGet
    rw [List.find?_append]
    cases hf : d.find? (fun p => p.1 == k') with
    | none =>
      simp only [Option.none_or]
      by_cases hk : k' = k
      · subst hk
        have hb : (k' == k') = true := by rw [beq_iff_eq]
        simp [List.find?, hb]
      · have hb : (k == k') = false := by
          rw [beq_eq_false_iff_ne]
          exact fun h => hk h.symm
        simp [List.find?, hb, hk]
    | some p =>
      simp only [Option.or]
      by_cases hk : k' = k
      · exfalso
        subst hk
        unfold dHas at hhas
        rw [hf] at hhas
        simp at hhas
      · simp [hk]

theorem namesOf_nil (P : Str) : namesOf [] P = [] := rfl

theorem keysOf_dictExtend (m : DictS) (k : Str) (vs : List Str) :
    keysOf (dictExtend m k vs) =
      if dHas m k then keysOf m else keysOf m ++ [k] := by
  unfold dictExtend keysOf
  cases dHas m k with
  | true =>
    simp only [if_true]
    rw [List.map_map]
    congr 1
    funext p
    by_cases h : p.1 = k <;> simp [h]
  | false => simp

theorem not_mem_keysOf_of_dHas_false (m : DictS) (k : Str)
    (h : dHas m k = false) : k ∉ keysOf m := by
  intro hmem
  unfold keysOf at hmem
  obtain ⟨p, hp, hpk⟩ := List.mem_map.mp hmem
  unfold dHas at h
  cases hf : m.find? (fun q => q.1 == k) with
  | some q => rw [hf] at h; simp at h
  | none =>
    rw [List.find?_eq_none] at hf
    have := hf p hp
    rw [hpk] at this
    simp at this

theorem nodup_keys_dictExtend (m : DictS) (k : Str) (vs : List Str)
    (h : (keysOf m).Nodup) : (keysOf (dictExtend m k vs)).Nodup := by
  rw [keysOf_dictExtend]
  cases hhas : dHas m k with
  | true => exact h
  | false =>
    simp only [Bool.false_eq_true, if_false]
    rw [List.nodup_append]
    refine ⟨h, List.nodup_singleton k, ?_⟩
    intro a ha hb
    rw [List.mem_singleton] at hb
    subst hb
    exact not_mem_keysOf_of_dHas_false m a hhas ha

theorem find?_filter_of_nodup_keys (f : Str × List Str → Bool) (P : Str) :
    ∀ m : DictS, (keysOf m).Nodup →
      (m.filter f).find? (fun p => p.1 == P) =
        match m.find? (fun p => p.1 == P) with
        | some p => if f p then some p else none
        | none => none := by
  intro m
  induction m with
  | nil => intro _; rfl
  | cons e rest ih =>
    intro hnd
    have hcons := List.nodup_cons.mp hnd
    have hnotin : e.1 ∉ keysOf rest := hcons.1
    have hnd' : (keysOf rest).Nodup := hcons.2
    by_cases hP : e.1 = P
    · have hb : (e.1 == P) = true := by rw [beq_iff_eq]; exact hP
      have hfind : (e :: rest).find? (fun p => p.1 == P) = some e := by
        simp [List.find?, hb]
      rw [hfind]
      cases hfe : f e with
      | true =>
        have : (e :: rest).filter f = e :: rest.filter f := by
          simp [List.filter, hfe]
        rw [this]
        simp [List.find?, hb, hfe]
      | false =>
        have : (e :: rest).filter f = rest.filter f := by
          simp [List.filter, hfe]
        rw [this]
        simp only [hfe, Bool.false_eq_true, if_false]
        rw [List.find?_eq_none]
        intro p hp
        have hpr : p ∈ rest := List.mem_of_mem_filter hp
        have : p.1 ≠ P := by
          intro hcontra
          apply hnotin
          rw [hP, ← hcontra]
          exact List.mem_map.mpr ⟨p, hpr, rfl⟩
        simp [this]
    · have hb : (e.1 == P) = false := by rw [beq_eq_false_iff_ne]; exact hP
      have hfind : (e :: rest).find? (fun p => p.1 == P) =
          rest.find? (fun p => p.1 == P) := by
        simp [List.find?, hb]
      rw [hfind]
      cases hfe : f e with
      | true =>
        have : (e :: rest).filter f = e :: rest.filter f := by
          simp [List.filter, hfe]
        rw [this]
        have : (e :: rest.filter f).find? (fun p => p.1 == P) =
            (rest.filter f).find? (fun p => p.1 == P) := by
          simp [List.find?, hb]
        rw [this]
        exact ih hnd'
      | false =>
        have : (e :: rest).filter f = rest.filter f := by
          simp [List.filter, hfe]
        rw [this]
        exact ih hnd'

theorem dGet_filter_of_nodup_keys (f : Str × List Str → Bool) (P : Str)
    (m : DictS) (h : (keysOf m).Nodup) :
    dGet (m.filter f) P =
      match m.find? (fun p => p.1 == P) with
      | some p => if f p then p.2 else []
      | none => [] := by
  unfold dGet
  rw [find?_filter_of_nodup_keys f P m h]
  cases m.find? (fun p => p.1 == P) with
  | none => rfl
  | some p => by_cases hf : f p <;> simp [hf]

theorem dHas_filter_of_nodup_keys (f : Str × List Str → Bool) (P : Str)
    (m : DictS) (h : (keysOf m).Nodup) :
    dHas (m.filter f) P =
      match m.find? (fun p => p.1 == P) with
      | some p => f p
      | none => false := by
  unfold dHas
  rw [find?_filter_of_nodup_keys f P m h]
  cases m.find? (fun p => p.1 == P) with
  | none => rfl
  | some p => by_cases hf : f p <;> simp [hf]

theorem dGet_dup_fold (rows : List DupRow) :
    ∀ (m : DictS) (P : Str),
      dGet (rows.foldl (fun m r => dictExtend m r.phone [r.name]) m) P =
        dGet m P ++ namesOf rows P := by
  induction rows with
  | nil => intro m P; simp [namesOf]
  | cons r rest ih =>
    intro m P
    rw [List.foldl_cons, ih, dGet_dictExtend]
    unfold namesOf
    by_cases h : r.phone = P
    · have hb : (r.phone == P) = true := by rw [beq_iff_eq]; exact h
      simp [List.filter_cons, hb, h, namesOf]
    · have hb : (r.phone == P) = false := by rw [beq_eq_false_iff_ne]; exact h
      have h' : ¬(P = r.phone) := fun hc => h hc.symm
      simp [List.filter_cons, hb, h', namesOf]

theorem nodup_keys_dup_fold (rows : List DupRow) :
    ∀ m : DictS, (keysOf m).Nodup →
      (keysOf (rows.foldl (fun m r => dictExtend m r.phone [r.name]) m)).Nodup := by
  induction rows with
  | nil => intro m h; exact h
  | cons r rest ih =>
    intro m h
    rw [List.foldl_cons]
    exact ih _ (nodup_keys_dictExtend m r.phone [r.name] h)

/-- C2 (amended): `find_duplicates` returns exactly the phone groups with 2 or
more name ENTRIES (counting multiplicity: equal names from separate rows are
not collapsed, so a phone whose rows all carry one repeated name still
appears), each mapped to the list of its rows' names in row order; in
particular phones [P1, P1, P2] with names [N1, N2, N3] yield exactly the
group P1 ↦ [N1, N2], with P2 excluded. -/
theorem find_duplicates_groups :
    (∀ (rows : List DupRow) (P : Str),
        dGet (find_duplicates rows) P =
          if 2 ≤ (namesOf rows P).length then namesOf rows P else []) ∧
    (∀ (rows : List DupRow) (P : Str),
        dHas (find_duplicates rows) P = decide (2 ≤ (namesOf rows P).length)) ∧
    find_duplicates
        [⟨toL "P1", toL "N1"⟩, ⟨toL "P1", toL "N2"⟩, ⟨toL "P2", toL "N3"⟩] =
      [(toL "P1", [toL "N1", toL "N2"])] := by
  have key : ∀ (rows : List DupRow) (P : Str),
      (keysOf (rows.foldl (fun m r => dictExtend m r.phone [r.name]) [])).Nodup ∧
      dGet (rows.foldl (fun m r => dictExtend m r.phone [r.name]) []) P =
        namesOf rows P := by
    intro rows P
    refine ⟨nodup_keys_dup_fold rows [] List.nodup_nil, ?_⟩
    rw [dGet_dup_fold rows [] P, dGet_nil, List.nil_append]
  refine ⟨?_, ?_, by decide⟩
  · intro rows P
    obtain ⟨hnd, hget⟩ := key rows P
    unfold find_duplicates
    rw [dGet_filter_of_nodup_keys _ P _ hnd]
    unfold dGet at hget
    cases hf : (rows.foldl (fun m r => dictExtend m r.phone [r.name]) []).find?
        (fun p => p.1 == P) with
    | none =>
      rw [hf] at hget
      rw [← hget]
      simp
    | some p =>
      rw [hf] at hget
      rw [← hget]
      by_cases hlen : 2 ≤ p.2.length
      · simp [hlen]
      · simp [hlen]
  · intro rows P
    obtain ⟨hnd, hget⟩ := key rows P
    unfold find_duplicates
    rw [dHas_filter_of_nodup_keys _ P _ hnd]
    unfold dGet at hget
    cases hf : (rows.foldl (fun m r => dictExtend m r.phone [r.name]) []).find?
        (fun p => p.1 == P) with
    | none =>
      rw [hf] at hget
      rw [← hget]
      simp
    | some p =>
      rw [hf] at hget
      rw [← hget]

/-- C2 counterexample: two rows sharing one phone and one repeated name are
returned as a group by `find_duplicates`, although the group has only one
DISTINCT name entry — refuting the claim that exactly the groups with 2 or
more distinct names are returned. -/
theorem find_duplicates_nondistinct_cex :
    find_duplicates [⟨toL "P", toL "N"⟩, ⟨toL "P", toL "N"⟩] =
      [(toL "P", [toL "N", toL "N"])] ∧
    ([toL "N", toL "N"] : List Str).dedup = [toL "N"] :=
  ⟨by decide, by decide⟩


theorem luhnTerm_eq_specLuhnTerm (i v : Nat) (hv : v ≤ 9) :
    luhnTerm i v = specLuhnTerm i v := by
  unfold luhnTerm specLuhnTerm
  split
  · rfl
  · split <;> split <;> omega

theorem isDigitChar_digitVal_le (c : Char) (h : isDigitChar c = true) :
    digitVal c ≤ 9 := by
  unfold isDigitChar at h
  unfold digitVal
  simp only [Bool.and_eq_true, decide_eq_true_eq] at h
  omega

theorem enumFrom_luhn_sum_eq (l : Str) :
    ∀ n : Nat, (∀ c ∈ l, isDigitChar c = true) →
      ((List.enumFrom n l).map (fun q => luhnTerm q.1 (digitVal q.2))).sum =
      ((List.enumFrom n (l.map digitVal)).map (fun q => specLuhnTerm q.1 q.2)).sum := by
  induction l with
  | nil => intro n _; rfl
  | cons c rest ih =>
    intro n hall
    simp only [List.enumFrom, List.map_cons, List.map, List.sum_cons]
    rw [luhnTerm_eq_specLuhnTerm n (digitVal c)
      (isDigitChar_digitVal_le c (hall c (List.mem_cons_self c rest)))]
    rw [ih (n + 1) (fun x hx => hall x (List.mem_cons_of_mem c hx))]

/-- C1: for every input string that is exactly 9 numeric characters after
left-padding with zeros to length 9, `_compute_id_control_digit` returns
`(10 - T) mod 10` where `T` is the positional weighted digit sum (digit at
even indices, doubled digit at odd indices with `doubled - 9` when the
doubled value reaches 10) taken mod 10. -/
theorem compute_id_control_digit_matches_spec (s : Str)
    (h9 : (zfill9 s).length = 9)
    (hd : ∀ c ∈ zfill9 s, isDigitChar c = true) :
    compute_id_control_digit s = some (specCheckDigit ((zfill9 s).map digitVal)) := by
  unfold compute_id_control_digit specCheckDigit
  have hcond : ((zfill9 s).length == 9 && (zfill9 s).all isDigitChar) = true := by
    rw [Bool.and_eq_true, beq_iff_eq, List.all_eq_true]
    exact ⟨h9, hd⟩
  simp only [hcond, if_true]
  have := enumFrom_luhn_sum_eq (zfill9 s) 0 hd
  simp only [List.enum] at *
  rw [this]

/-- Witness for C1 at the concrete input "000000000". -/
theorem compute_id_control_digit_matches_spec_witness :
    compute_id_control_digit (toL "000000000") =
      some (specCheckDigit ((zfill9 (toL "000000000")).map digitVal)) :=
  compute_id_control_digit_matches_spec (toL "000000000") (by decide) (by decide)

/-- C9: `_compute_id_control_digit` raises its assertion-style error (modelled
as `none`) exactly when the input has a non-digit character or has length
greater than 9; on all other inputs the assertion is unreachable and the
function returns normally. -/
theorem compute_id_control_digit_raises_iff (s : Str) :
    compute_id_control_digit s = none ↔
      (9 < s.length ∨ ∃ c ∈ s, isDigitChar c = false) := by
  unfold compute_id_control_digit
  have hlen : (zfill9 s).length = (9 - s.length) + s.length := by
    unfold zfill9
    rw [List.length_append, List.length_replicate]
  constructor
  · intro h
    by_contra hneg
    push_neg at hneg
    obtain ⟨hle, hdig⟩ := hneg
    have h9 : (zfill9 s).length = 9 := by omega
    have hall : (zfill9 s).all isDigitChar = true := by
      rw [List.all_eq_true]
      intro c hc
      unfold zfill9 at hc
      rcases List.mem_append.mp hc with hrep | hmem
      · rw [List.eq_of_mem_replicate hrep]; rfl
      · have := hdig c hmem
        cases hval : isDigitChar c
        · exact absurd hval this
        · rfl
    simp only [h9, hall, Bool.and_true, beq_self_eq_true, if_true] at h
    exact Option.some_ne_none _ h
  · intro h
    rcases h with hlong | ⟨c, hc, hbad⟩
    · have : ((zfill9 s).length == 9) = false := by
        rw [beq_eq_false_iff_ne]
        omega
      simp [this]
    · have : (zfill9 s).all isDigitChar = false := by
        rw [Bool.eq_false_iff]
        intro hall
        rw [List.all_eq_true] at hall
        have : c ∈ zfill9 s := by
          unfold zfill9
          exact List.mem_append.mpr (Or.inr hc)
        rw [hall c this] at hbad
        exact Bool.true_eq_false.mp hbad
      simp [this]

theorem dropWhile_head_false (p : Char → Bool) :
    ∀ (l : Str) (x : Char) (xs : Str), l.dropWhile p = x :: xs → p x = false := by
  intro l
  induction l with
  | nil => intro x xs h; exact absurd h (by simp [List.dropWhile])
  | cons a rest ih =>
    intro x xs h
    rw [List.dropWhile_cons] at h
    by_cases ha : p a = true
    · rw [if_pos ha] at h
      exact ih x xs h
    · rw [if_neg ha] at h
      cases h
      exact Bool.eq_false_iff.mpr ha

theorem dropWhile_idem (p : Char → Bool) (l : Str) :
    (l.dropWhile p).dropWhile p = l.dropWhile p := by
  cases h : l.dropWhile p with
  | nil => rfl
  | cons x xs =>
    have hx := dropWhile_head_false p l x xs h
    rw [List.dropWhile_cons, hx]
    simp

theorem dropEndWhile_idem (p : Char → Bool) (l : Str) :
    dropEndWhile p (dropEndWhile p l) = dropEndWhile p l := by
  unfold dropEndWhile
  rw [List.reverse_reverse, dropWhile_idem]

theorem dropEndWhile_prefix (p : Char → Bool) (l : Str) :
    ∃ t, l = dropEndWhile p l ++ t := by
  refine ⟨(l.reverse.takeWhile p).reverse, ?_⟩
  unfold dropEndWhile
  rw [← List.reverse_append, List.takeWhile_append_dropWhile, List.reverse_reverse]

theorem dropWhile_dropEndWhile_dropWhile (p : Char → Bool) (l : Str) :
    (dropEndWhile p (l.dropWhile p)).dropWhile p = dropEndWhile p (l.dropWhile p) := by
  cases h : dropEndWhile p (l.dropWhile p) with
  | nil => rfl
  | cons x xs =>
    obtain ⟨t, ht⟩ := dropEndWhile_prefix p (l.dropWhile p)
    rw [h] at ht
    have hx : p x = false := dropWhile_head_false p l x (xs ++ t) (by rw [ht]; rfl)
    rw [List.dropWhile_cons, hx]
    simp

theorem stripL_stripL (s : Str) : stripL (stripL s) = stripL s := by
  unfold stripL
  rw [dropWhile_dropEndWhile_dropWhile, dropEndWhile_idem]

theorem mem_dedupStrip (L : List Str) (x : Str) :
    x ∈ dedupStrip L ↔ ∃ y ∈ L, y ≠ [] ∧ stripL y = x := by
  unfold dedupStrip
  rw [List.mem_dedup, List.mem_map]
  constructor
  · rintro ⟨y, hy, rfl⟩
    rw [List.mem_filter] at hy
    refine ⟨y, hy.1, ?_, rfl⟩
    have := hy.2
    simp only [Bool.not_eq_eq_eq_not, Bool.not_true] at this
    intro hnil
    rw [hnil] at this
    simp [List.isEmpty] at this
  · rintro ⟨y, hy, hne, rfl⟩
    refine ⟨y, ?_, rfl⟩
    rw [List.mem_filter]
    refine ⟨hy, ?_⟩
    cases y with
    | nil => exact absurd rfl hne
    | cons a b => simp [List.isEmpty]

theorem nodup_dedupStrip (L : List Str) : (dedupStrip L).Nodup :=
  List.nodup_dedup _

theorem stripL_fixed_of_mem_dedupStrip (L : List Str) (x : Str)
    (h : x ∈ dedupStrip L) : stripL x = x := by
  obtain ⟨y, _, _, rfl⟩ := (mem_dedupStrip L x).mp h
  exact stripL_stripL y

theorem dedupStrip_nil : dedupStrip [] = [] := rfl

theorem nESmem_iff (L : List Str) (x : Str) :
    nESmem L x ↔ x ≠ [] ∧ x ∈ dedupStrip L := by
  unfold nESmem
  rw [mem_dedupStrip]

theorem nESmem_append (L1 L2 : List Str) (x : Str) :
    nESmem (L1 ++ L2) x ↔ nESmem L1 x ∨ nESmem L2 x := by
  unfold nESmem
  constructor
  · rintro ⟨hx, y, hy, hne, rfl⟩
    rcases List.mem_append.mp hy with h | h
    · exact Or.inl ⟨hx, y, h, hne, rfl⟩
    · exact Or.inr ⟨hx, y, h, hne, rfl⟩
  · rintro (⟨hx, y, hy, hne, rfl⟩ | ⟨hx, y, hy, hne, rfl⟩)
    · exact ⟨hx, y, List.mem_append.mpr (Or.inl hy), hne, rfl⟩
    · exact ⟨hx, y, List.mem_append.mpr (Or.inr hy), hne, rfl⟩

theorem nESmem_dedupStrip (L : List Str) (x : Str) :
    nESmem (dedupStrip L) x ↔ nESmem L x := by
  constructor
  · rintro ⟨hx, y, hy, hyne, rfl⟩
    have hfix : stripL y = y := stripL_fixed_of_mem_dedupStrip L y hy
    rw [hfix]
    obtain ⟨w, hw, hwne, hws⟩ := (mem_dedupStrip L y).mp hy
    exact ⟨hfix ▸ hx, w, hw, hwne, hws⟩
  · rintro ⟨hx, y, hy, hyne, rfl⟩
    have hmem : stripL y ∈ dedupStrip L := (mem_dedupStrip L _).mpr ⟨y, hy, hyne, rfl⟩
    exact ⟨hx, stripL y, hmem, hx, stripL_stripL y⟩

theorem joinSep_ne_nil_of_mem (vs : List Str) (x : Str)
    (hx : x ∈ vs) (hne : x ≠ []) : joinSep vs ≠ [] := by
  cases vs with
  | nil => exact absurd hx (List.not_mem_nil x)
  | cons v rest =>
    cases rest with
    | nil =>
      rw [List.mem_singleton] at hx
      subst hx
      exact hne
    | cons w t =>
      unfold joinSep
      intro h
      rw [List.append_assoc, List.append_eq_nil] at h
      have := h.2
      rw [List.append_eq_nil] at this
      exact absurd this.1 (by simp [sepStr])

theorem all_nil_nodup_eq (vs : List Str) (hnd : vs.Nodup)
    (hall : ∀ x ∈ vs, x = []) : vs = [] ∨ vs = [[]] := by
  cases vs with
  | nil => exact Or.inl rfl
  | cons a rest =>
    cases rest with
    | nil =>
      right
      rw [hall a (List.mem_cons_self a [])]
    | cons b t =>
      exfalso
      have ha := hall a (by simp)
      have hb := hall b (by simp)
      rw [List.nodup_cons] at hnd
      apply hnd.1
      rw [ha, ← hb]
      simp

theorem joinSep_single_nil : joinSep [[]] = [] := rfl

theorem dGet_map_entry (g : List Str → List Str) (d : DictS) (k k' : Str) :
    dGet (d.map (fun p => if p.1 == k then (p.1, g p.2) else p)) k' =
      (match d.find? (fun p => p.1 == k') with
       | some p => if p.1 == k then g p.2 else p.2
       | none => []) := by
  unfold dGet
  rw [List.find?_map]
  have hcomp : ((fun p : Str × List Str => p.1 == k') ∘
      (fun p => if p.1 == k then (p.1, g p.2) else p)) =
      (fun p : Str × List Str => p.1 == k') := by
    funext p
    by_cases h : p.1 = k <;> simp [h]
  rw [hcomp]
  cases hf : d.find? (fun p => p.1 == k') with
  | none => rfl
  | some p =>
    simp only [Option.map_some]
    by_cases h : p.1 = k <;> simp [h]

theorem dGet_dictDedupAt (d : DictS) (k k' : Str) :
    dGet (dictDedupAt d k) k' =
      if k' = k then dedupStrip (dGet d k') else dGet d k' := by
  unfold dictDedupAt
  cases hhas : dHas d k with
  | true =>
    simp only [hhas, if_true]
    rw [dGet_map_entry]
    unfold dGet
    cases hf : d.find? (fun p => p.1 == k') with
    | none =>
      have hne : k' ≠ k := by
        intro hk
        subst hk
        unfold dHas at hhas
        rw [hf] at hhas
        simp at hhas
      simp [hne, dedupStrip_nil]
    | some p =>
      have hp : p.1 = k' := by
        have := List.find?_some hf
        rwa [beq_iff_eq] at this
      by_cases hk : k' = k
      · have hb : (p.1 == k) = true := by rw [beq_iff_eq, hp]; exact hk
        simp [hb, hk]
      · have hb : (p.1 == k) = false := by
          rw [beq_eq_false_iff_ne, hp]
          exact hk
        simp [hb, hk]
  | false =>
    simp only [Bool.false_eq_true, if_false]
    by_cases hk : k' = k
    · subst hk
      rw [dHas_false_dGet d k' hhas]
      simp [dedupStrip_nil]
    · simp [hk]

theorem dGet_add_to_dict (d : DictS) (k k' : Str) (vs : List Str) :
    dGet (add_to_dict_if_not_empty k vs d) k' =
      dGet d k' ++ (if k' = k then vs else []) := by
  unfold add_to_dict_if_not_empty
  by_cases hvs : vs = []
  · subst hvs
    simp
  · rw [if_neg hvs]
    exact dGet_dictExtend d k k' vs

theorem procRow_eq_of_value_nil (q : Option (Str → List Str)) (d : DictS)
    (r : ActRow) (hv : r.value = []) :
    procRow q d r = dictDedupAt
      (match q with
       | some f => add_to_dict_if_not_empty r.phone (f r.phone) d
       | none => d) r.phone := by
  unfold procRow
  rw [hv]
  rfl

theorem procRow_eq_of_value_cons (q : Option (Str → List Str)) (d : DictS)
    (r : ActRow) (a : Char) (t : Str) (hv : r.value = a :: t) :
    procRow q d r = dictDedupAt
      (add_to_dict_if_not_empty r.phone (splitSep r.value)
        (match q with
         | some f => add_to_dict_if_not_empty r.phone (f r.phone) d
         | none => d)) r.phone := by
  unfold procRow
  rw [hv]
  rfl

theorem dGet_procRow_self (q : Option (Str → List Str)) (d : DictS) (r : ActRow)
    (hv : r.value = []) :
    dGet (procRow q d r) r.phone =
      dedupStrip (dGet d r.phone ++ qVals q r.phone) := by
  rw [procRow_eq_of_value_nil q d r hv]
  cases q with
  | none =>
    rw [dGet_dictDedupAt, if_pos rfl]
    simp [qVals]
  | some f =>
    rw [dGet_dictDedupAt, if_pos rfl, dGet_add_to_dict, if_pos rfl]
    simp [qVals]

theorem dGet_procRow_other (q : Option (Str → List Str)) (d : DictS) (r : ActRow)
    (P : Str) (hP : P ≠ r.phone) :
    dGet (procRow q d r) P = dGet d P := by
  cases hv : r.value with
  | nil =>
    rw [procRow_eq_of_value_nil q d r hv]
    cases q with
    | none => rw [dGet_dictDedupAt, if_neg hP]
    | some f =>
      rw [dGet_dictDedupAt, if_neg hP, dGet_add_to_dict, if_neg hP,
        List.append_nil]
  | cons a t =>
    rw [procRow_eq_of_value_cons q d r a t hv]
    cases q with
    | none =>
      rw [dGet_dictDedupAt, if_neg hP, dGet_add_to_dict, if_neg hP,
        List.append_nil]
    | some f =>
      rw [dGet_dictDedupAt, if_neg hP, dGet_add_to_dict, if_neg hP,
        List.append_nil, dGet_add_to_dict, if_neg hP, List.append_nil]

theorem dGet_procRow_dedup (q : Option (Str → List Str)) (d : DictS) (r : ActRow) :
    ∃ L, dGet (procRow q d r) r.phone = dedupStrip L := by
  cases hv : r.value with
  | nil =>
    rw [procRow_eq_of_value_nil q d r hv]
    exact ⟨_, by rw [dGet_dictDedupAt, if_pos rfl]⟩
  | cons a t =>
    rw [procRow_eq_of_value_cons q d r a t hv]
    exact ⟨_, by rw [dGet_dictDedupAt, if_pos rfl]⟩

theorem Jinv_refl (q : Option (Str → List Str)) (base : DictS) :
    Jinv q base base := fun _ _ => Iff.rfl

theorem Jinv_procRow (q : Option (Str → List Str)) (base d : DictS) (r : ActRow)
    (hv : r.value = []) (hJ : Jinv q base d) : Jinv q base (procRow q d r) := by
  intro P x
  by_cases hP : P = r.phone
  · rw [hP, dGet_procRow_self q d r hv]
    have h1 := hJ r.phone x
    rw [nESmem_append] at h1
    rw [nESmem_append, nESmem_dedupStrip, ← h1, nESmem_append]
    tauto
  · rw [dGet_procRow_other q d r P hP]
    exact hJ P x

theorem rowFilter_false_elim (r : ActRow) (h : rowFilter false r = false) :
    r.phone = [] ∨ r.value ≠ [] := by
  by_cases hp : r.phone = []
  · exact Or.inl hp
  · right
    intro hv
    unfold rowFilter at h
    rw [hv] at h
    simp [hp] at h

theorem rowFilter_true_elim (r : ActRow) (h : rowFilter false r = true) :
    r.phone ≠ [] ∧ r.value = [] := by
  unfold rowFilter at h
  rw [Bool.false_or, Bool.and_eq_true] at h
  exact ⟨bne_iff_ne.mp h.1, by have := h.2; rwa [beq_iff_eq] at this⟩

theorem writeCond_false_vs_nil (d3 : DictS) (P : Str)
    (h : (dHas d3 P && !(dGet d3 P).isEmpty) = false) : dGet d3 P = [] := by
  cases hhas : dHas d3 P with
  | false => exact dHas_false_dGet d3 P hhas
  | true =>
    rw [hhas, Bool.true_and] at h
    cases he : (dGet d3 P).isEmpty with
    | true => exact List.isEmpty_iff.mp he
    | false => rw [he] at h; simp at h

theorem writeCond_true_vs_ne_nil (d3 : DictS) (P : Str)
    (h : (dHas d3 P && !(dGet d3 P).isEmpty) = true) : dGet d3 P ≠ [] := by
  rw [Bool.and_eq_true] at h
  have := h.2
  intro hnil
  rw [hnil] at this
  simp at this

theorem fillGo_stable (base : DictS) (q : Option (Str → List Str)) (updOk : Nat → Bool) :
    ∀ (l : List ActRow) (i : Nat) (d : DictS), Jinv q base d →
      StableList base q updOk i (fillGo q false updOk i d l).1 := by
  intro l
  induction l with
  | nil =>
    intro i d _
    simp only [fillGo, StableList]
  | cons r rest ih =>
    intro i d hJ
    cases hfilt : rowFilter false r with
    | false =>
      simp only [fillGo, hfilt, Bool.false_eq_true, if_false, StableList]
      refine ⟨?_, ih (i + 1) d hJ⟩
      unfold stableRow
      rcases rowFilter_false_elim r hfilt with h | h
      · exact Or.inl h
      · exact Or.inr (Or.inl h)
    | true =>
      obtain ⟨hph, hval⟩ := rowFilter_true_elim r hfilt
      have hJ3 : Jinv q base (procRow q d r) := Jinv_procRow q base d r hval hJ
      cases hcond : (dHas (procRow q d r) r.phone &&
          !(dGet (procRow q d r) r.phone).isEmpty) with
      | false =>
        simp only [fillGo, hfilt, if_true, hcond, Bool.false_eq_true, if_false,
          StableList]
        refine ⟨?_, ih (i + 1) (procRow q d r) hJ3⟩
        unfold stableRow
        right; right; right
        intro hreal
        obtain ⟨x, hx⟩ := hreal
        have hxd := (hJ r.phone x).mpr hx
        rw [nESmem_iff, ← dGet_procRow_self q d r hval] at hxd
        have hvs : dGet (procRow q d r) r.phone = [] :=
          writeCond_false_vs_nil _ _ hcond
        rw [hvs] at hxd
        exact absurd hxd.2 (List.not_mem_nil x)
      | true =>
        simp only [fillGo, hfilt, if_true, hcond, StableList]
        refine ⟨?_, ih (i + 1) (procRow q d r) hJ3⟩
        cases hupd : updOk i with
        | false =>
          simp only [Bool.false_eq_true, if_false]
          unfold stableRow
          right; right; left
          exact hupd
        | true =>
          simp only [if_true]
          by_cases hreal : hasRealP base q r.phone
          · unfold stableRow
            right; left
            obtain ⟨x, hx⟩ := hreal
            have hxd := (hJ r.phone x).mpr hx
            rw [nESmem_iff, ← dGet_procRow_self q d r hval] at hxd
            exact joinSep_ne_nil_of_mem _ x hxd.2 hxd.1
          · unfold stableRow
            right; right; right
            exact hreal

theorem fillGo_of_stable (base : DictS) (q : Option (Str → List Str)) (updOk : Nat → Bool) :
    ∀ (l : List ActRow) (i : Nat) (d : DictS), Jinv q base d →
      StableList base q updOk i l →
      (fillGo q false updOk i d l).1 = l := by
  intro l
  induction l with
  | nil => intro i d _ _; rfl
  | cons r rest ih =>
    intro i d hJ hst
    have hsr : stableRow base q updOk i r := hst.1
    have hstt : StableList base q updOk (i + 1) rest := hst.2
    cases hfilt : rowFilter false r with
    | false =>
      simp only [fillGo, hfilt, Bool.false_eq_true, if_false]
      rw [ih (i + 1) d hJ hstt]
    | true =>
      obtain ⟨hph, hval⟩ := rowFilter_true_elim r hfilt
      have hJ3 : Jinv q base (procRow q d r) := Jinv_procRow q base d r hval hJ
      cases hcond : (dHas (procRow q d r) r.phone &&
          !(dGet (procRow q d r) r.phone).isEmpty) with
      | false =>
        simp only [fillGo, hfilt, if_true, hcond, Bool.false_eq_true, if_false]
        rw [ih (i + 1) (procRow q d r) hJ3 hstt]
      | true =>
        simp only [fillGo, hfilt, if_true, hcond]
        rw [ih (i + 1) (procRow q d r) hJ3 hstt]
        cases hupd : updOk i with
        | false => simp
        | true =>
          simp only [if_true]
          unfold stableRow at hsr
          rcases hsr with h | h | h | h
        
          · exact absurd h hph
          · exact absurd hval h
          · rw [hupd] at h; simp at h
          · -- no real value for this phone: the written join is empty
            have hvs : dGet (procRow q d r) r.phone =
                dedupStrip (dGet d r.phone ++ qVals q r.phone) :=
              dGet_procRow_self q d r hval
            have hallnil : ∀ x ∈ dGet (procRow q d r) r.phone, x = [] := by
              intro x hx
              by_contra hxne
              apply h
              refine ⟨x, ?_⟩
              rw [← hJ r.phone x]
              rw [nESmem_iff, ← dGet_procRow_self q d r hval]
              exact ⟨hxne, hx⟩
            have hnd : (dGet (procRow q d r) r.phone).Nodup := by
              rw [hvs]; exact nodup_dedupStrip _
            have hne : dGet (procRow q d r) r.phone ≠ [] :=
              writeCond_true_vs_ne_nil _ _ hcond
            rcases all_nil_nodup_eq _ hnd hallnil with hnil | hsing
            · exact absurd hnil hne
            · rw [hsing, joinSep_single_nil]
              congr 1
              cases r with
              | mk p v =>
                simp only at hval
                rw [hval]

/-- C5: the phone-join field fill run with `full_run = False` is idempotent:
for every fixed registration-table and activists-table state (and any
deterministic supplementary query and per-row update success pattern),
running the fill a second time returns the first run's table unchanged, so
every target row's field ends with the same final value as after one run. -/
theorem fill_idempotent (registration_field : Str) (regRows : List Row)
    (acts : List ActRow) (q : Option (Str → List Str)) (updOk : Nat → Bool)
    (T1 : List ActRow) (ws1 : List (Nat × List Str))
    (h : fill_field_from_registration_to_activists registration_field regRows acts
        false q updOk = Except.ok (T1, ws1)) :
    ∃ ws2, fill_field_from_registration_to_activists registration_field regRows T1
        false q updOk = Except.ok (T1, ws2) := by
  unfold fill_field_from_registration_to_activists at h ⊢
  cases hb : build_phone_to_field_dict_from_table_rows registration_field regRows with
  | error e =>
    rw [hb] at h
    exact Except.noConfusion h
  | ok base =>
    rw [hb] at h
    have h2 : Except.ok (ε := String) (fillGo q false updOk 0 base acts) =
        Except.ok (T1, ws1) := h
    have h3 : fillGo q false updOk 0 base acts = (T1, ws1) := by
      injection h2
    have hT : T1 = (fillGo q false updOk 0 base acts).1 := by rw [h3]
    refine ⟨(fillGo q false updOk 0 base T1).2, ?_⟩
    have hst : StableList base q updOk 0 T1 := by
      rw [hT]
      exact fillGo_stable base q updOk acts 0 base (Jinv_refl q base)
    have h1 : (fillGo q false updOk 0 base T1).1 = T1 :=
      fillGo_of_stable base q updOk T1 0 base (Jinv_refl q base) hst
    show Except.ok (fillGo q false updOk 0 base T1) =
      Except.ok (T1, (fillGo q false updOk 0 base T1).2)
    congr 1
    exact Prod.ext h1 rfl

/-- Witness for C5 at a concrete one-row instance. -/
theorem fill_idempotent_witness :
    ∃ ws2, fill_field_from_registration_to_activists (toL "email")
        [⟨[(toL "_NormalizedPhoneNumber", toL "p"), (toL "email", toL "a")]⟩]
        [⟨toL "p", toL "a"⟩] false none (fun _ => true) =
      Except.ok ([⟨toL "p", toL "a"⟩], ws2) :=
  fill_idempotent (toL "email")
    [⟨[(toL "_NormalizedPhoneNumber", toL "p"), (toL "email", toL "a")]⟩]
    [⟨toL "p", []⟩] none (fun _ => true)
    [⟨toL "p", toL "a"⟩] [(0, [toL "a"])] rfl

theorem fillGo_writes_clean (q : Option (Str → List Str)) (full_run : Bool)
    (updOk : Nat → Bool) :
    ∀ (l : List ActRow) (i : Nat) (d : DictS) (w : Nat × List Str),
      w ∈ (fillGo q full_run updOk i d l).2 →
      w.2.Nodup ∧ w.2 ≠ [] ∧ ∀ x ∈ w.2, stripL x = x := by
  intro l
  induction l with
  | nil =>
    intro i d w hw
    simp only [fillGo] at hw
    exact absurd hw (List.not_mem_nil w)
  | cons r rest ih =>
    intro i d w hw
    cases hfilt : rowFilter full_run r with
    | false =>
      simp only [fillGo, hfilt, Bool.false_eq_true, if_false] at hw
      exact ih (i + 1) d w hw
    | true =>
      cases hcond : (dHas (procRow q d r) r.phone &&
          !(dGet (procRow q d r) r.phone).isEmpty) with
      | false =>
        simp only [fillGo, hfilt, if_true, hcond, Bool.false_eq_true, if_false] at hw
        exact ih (i + 1) (procRow q d r) w hw
      | true =>
        simp only [fillGo, hfilt, if_true, hcond] at hw
        rcases List.mem_cons.mp hw with hhd | htl
        · subst hhd
          obtain ⟨L, hL⟩ := dGet_procRow_dedup q d r
          refine ⟨?_, ?_, ?_⟩
          · simp only [hL]
            exact nodup_dedupStrip L
          · exact writeCond_true_vs_ne_nil _ _ hcond
          · intro x hx
            simp only [hL] at hx
            exact stripL_fixed_of_mem_dedupStrip L x hx
        · exact ih (i + 1) (procRow q d r) w htl

/-- C6 (amended): every merged per-phone list the phone-join fill writes back
contains no repeated entries, is non-empty (a write happens only when the
merged list is non-empty), and every entry is already whitespace-stripped;
however, because values are discarded only when empty BEFORE stripping, a
whitespace-only source value strips to the empty string and can appear in a
written list. -/
theorem fill_writes_clean (registration_field : Str) (regRows : List Row)
    (acts : List ActRow) (full_run : Bool) (q : Option (Str → List Str))
    (updOk : Nat → Bool) (T : List ActRow) (ws : List (Nat × List Str))
    (h : fill_field_from_registration_to_activists registration_field regRows acts
        full_run q updOk = Except.ok (T, ws)) :
    ∀ w ∈ ws, w.2.Nodup ∧ w.2 ≠ [] ∧ ∀ x ∈ w.2, stripL x = x := by
  unfold fill_field_from_registration_to_activists at h
  cases hb : build_phone_to_field_dict_from_table_rows registration_field regRows with
  | error e =>
    rw [hb] at h
    exact Except.noConfusion h
  | ok base =>
    rw [hb] at h
    have h2 : Except.ok (ε := String) (fillGo q full_run updOk 0 base acts) =
        Except.ok (T, ws) := h
    have h3 : fillGo q full_run updOk 0 base acts = (T, ws) := by injection h2
    intro w hw
    have hws : ws = (fillGo q full_run updOk 0 base acts).2 := by rw [h3]
    rw [hws] at hw
    exact fillGo_writes_clean q full_run updOk acts 0 base w hw

/-- C6 counterexample: a registration row whose source field is the single
space " " yields a written merged list `[""]` — the written list contains an
empty string, refuting the claim that written lists never contain empty
strings. -/
theorem fill_writes_empty_entry_cex :
    fill_field_from_registration_to_activists (toL "email")
        [⟨[(toL "_NormalizedPhoneNumber", toL "p"), (toL "email", toL " ")]⟩]
        [⟨toL "p", []⟩] false none (fun _ => true) =
      Except.ok ([⟨toL "p", []⟩], [(0, [([] : Str)])]) ∧
    ([] : Str) ∈ [([] : Str)] :=
  ⟨rfl, by decide⟩

/-- Witness for C6 at a concrete run with one concrete write. -/
theorem fill_writes_clean_witness :
    ([toL "a"] : List Str).Nodup ∧ ([toL "a"] : List Str) ≠ [] ∧
      ∀ x ∈ ([toL "a"] : List Str), stripL x = x :=
  fill_writes_clean (toL "email")
    [⟨[(toL "_NormalizedPhoneNumber", toL "p"), (toL "email", toL "a")]⟩]
    [⟨toL "p", []⟩] false none (fun _ => true)
    [⟨toL "p", toL "a"⟩] [(0, [toL "a"])] rfl
    ((0 : Nat), [toL "a"]) (by decide)

theorem exceptBind_ok {α β : Type} (a : α) (g : α → Except String β) :
    (Except.ok a : Except String α) >>= g = g a := rfl

theorem exceptBind_error {α β : Type} (e : String) (g : α → Except String β) :
    (Except.error e : Except String α) >>= g = Except.error e := rfl

theorem exceptPure_bind {α β : Type} (a : α) (g : α → Except String β) :
    (pure a : Except String α) >>= g = g a := rfl

theorem build_errors_of_bad_row (field_name : Str) :
    ∀ (regs : List Row) (d : DictS),
      (∃ r ∈ regs, (colMatches field_name r).length ≠ 1) →
      ∃ e, (regs.foldlM (fun d row => do
          let field_full_name ← findFieldFullName field_name row
          let field_content := row.get field_full_name
          let phone_num := row.get (toL "_NormalizedPhoneNumber")
          if !field_content.isEmpty then
            pure (dictExtend d phone_num [field_content])
          else
            pure d) d) = Except.error e := by
  intro regs
  induction regs with
  | nil =>
    rintro d ⟨r, hr, _⟩
    exact absurd hr (List.not_mem_nil r)
  | cons r0 rest ih =>
    rintro d ⟨r, hr, hbad⟩
    rw [List.foldlM_cons]
    simp only []
    by_cases h0 : (colMatches field_name r0).length = 1
    · obtain ⟨k, hk⟩ := List.length_eq_one.mp h0
      have hfind : findFieldFullName field_name r0 = Except.ok k := by
        unfold findFieldFullName
        rw [hk]
      have hrest : ∃ rr ∈ rest, (colMatches field_name rr).length ≠ 1 := by
        rcases List.mem_cons.mp hr with heq | hmem
        · exfalso
          subst heq
          exact hbad h0
        · exact ⟨r, hmem, hbad⟩
      rw [hfind, exceptBind_ok]
      cases hfc : (r0.get k).isEmpty with
      | true =>
        obtain ⟨e, he⟩ := ih d hrest
        refine ⟨e, ?_⟩
        simp only [Bool.not_true, Bool.false_eq_true, if_false]
        rw [exceptPure_bind]
        exact he
      | false =>
        obtain ⟨e, he⟩ :=
          ih (dictExtend d (r0.get (toL "_NormalizedPhoneNumber")) [r0.get k]) hrest
        refine ⟨e, ?_⟩
        simp only [Bool.not_false, if_true]
        rw [exceptPure_bind]
        exact he
    · cases hcm : colMatches field_name r0 with
      | nil =>
        refine ⟨"KeyError: no column contains the field name", ?_⟩
        have hfind : findFieldFullName field_name r0 =
            Except.error "KeyError: no column contains the field name" := by
          unfold findFieldFullName
          rw [hcm]
        rw [hfind, exceptBind_error, exceptBind_error]
      | cons a t =>
        cases t with
        | nil => exact absurd (by rw [hcm]; rfl) h0
        | cons b t2 =>
          refine ⟨"KeyError: too many columns contain the field name", ?_⟩
          have hfind : findFieldFullName field_name r0 =
              Except.error "KeyError: too many columns contain the field name" := by
            unfold findFieldFullName
            rw [hcm]
          rw [hfind, exceptBind_error, exceptBind_error]

/-- C7: when the fuzzy column lookup over some source row matches zero or
more than one column, the phone-join fill raises the lookup error and does
not catch it: the entire fill aborts with an `Except.error` — no target row
is processed and no value is written. -/
theorem fill_aborts_on_column_mismatch (registration_field : Str)
    (regRows : List Row) (acts : List ActRow) (full_run : Bool)
    (q : Option (Str → List Str)) (updOk : Nat → Bool)
    (h : ∃ r ∈ regRows, (colMatches registration_field r).length ≠ 1) :
    ∃ e, fill_field_from_registration_to_activists registration_field regRows acts
        full_run q updOk = Except.error e := by
  obtain ⟨e, he⟩ := build_errors_of_bad_row registration_field regRows [] h
  refine ⟨e, ?_⟩
  unfold fill_field_from_registration_to_activists
  unfold build_phone_to_field_dict_from_table_rows
  rw [he]
  rfl

/-- Witness for C7: a registration row with no column containing "email". -/
theorem fill_aborts_on_column_mismatch_witness :
    ∃ e, fill_field_from_registration_to_activists (toL "email")
        [⟨[(toL "x", toL "y")]⟩] [⟨toL "p", []⟩] false none (fun _ => true) =
      Except.error e :=
  fill_aborts_on_column_mismatch (toL "email") [⟨[(toL "x", toL "y")]⟩]
    [⟨toL "p", []⟩] false none (fun _ => true)
    ⟨⟨[(toL "x", toL "y")]⟩, by decide, by decide⟩

theorem updateRow_true : updateRow true = Except.ok () := rfl

theorem update_row_safe_ok (ok : Bool) : update_row_safe ok = Except.ok () := by
  cases ok <;> rfl

theorem validateGo_ok (updOk : Nat → Bool) :
    ∀ (table : List ValRow) (i : Nat),
      ∃ t, validateGo updOk i table = Except.ok t := by
  intro table
  induction table with
  | nil => intro i; exact ⟨[], rfl⟩
  | cons r rest ih =>
    intro i
    obtain ⟨t, ht⟩ := ih (i + 1)
    cases hfilt : valFilter r with
    | false =>
      refine ⟨r :: t, ?_⟩
      simp only [validateGo, hfilt, Bool.false_eq_true, if_false, ht, exceptBind_ok]
      rfl
    | true =>
      cases hcid : compute_id_control_digit r.id with
      | none =>
        refine ⟨r :: t, ?_⟩
        simp only [validateGo, hfilt, if_true, hcid, ht, exceptBind_ok]
        rfl
      | some v =>
        refine ⟨(if updOk i then
            { r with valid := if v ≠ 0 then toL "לא" else toL "כן" } else r) :: t, ?_⟩
        simp only [validateGo, hfilt, if_true, hcid, update_row_safe_ok,
          exceptBind_ok, ht]
        rfl

theorem processNameRow_ok (rish elec : Option (Str → List (Str × Str)))
    (ok1 ok2 : Bool) (i : Nat) (r : NameRow) :
    ∃ p, processNameRow rish elec ok1 ok2 i r = Except.ok p := by
  cases rish <;> cases elec <;> cases ok1 <;> cases ok2 <;> exact ⟨_, rfl⟩

theorem fillNameGo_ok (rish elec : Option (Str → List (Str × Str)))
    (updOk : Nat → Nat → Bool) :
    ∀ (table : List NameRow) (i : Nat),
      ∃ p, fillNameGo rish elec updOk i table = Except.ok p := by
  intro table
  induction table with
  | nil => intro i; exact ⟨([], []), rfl⟩
  | cons r rest ih =>
    intro i
    obtain ⟨p, hp⟩ := ih (i + 1)
    cases hfilt : nameFilter rish.isSome elec.isSome r with
    | false =>
      refine ⟨(r :: p.1, p.2), ?_⟩
      simp only [fillNameGo, hfilt, Bool.false_eq_true, if_false, hp, exceptBind_ok]
      rfl
    | true =>
      cases hcid : compute_id_control_digit r.id with
      | none =>
        refine ⟨(r :: p.1, p.2), ?_⟩
        simp only [fillNameGo, hfilt, if_true, hcid, hp, exceptBind_ok]
        rfl
      | some v =>
        by_cases hv : v ≠ 0
        · refine ⟨(r :: p.1, p.2), ?_⟩
          simp only [fillNameGo, hfilt, if_true, hcid, hp, exceptBind_ok]
          rw [if_pos hv]
          rfl
        · obtain ⟨pr, hpr⟩ := processNameRow_ok rish elec (updOk i 0) (updOk i 1) i r
          refine ⟨(pr.1 :: p.1, pr.2 ++ p.2), ?_⟩
          simp only [fillNameGo, hfilt, if_true, hcid, hpr, hp, exceptBind_ok]
          rw [if_neg hv]
          rfl

theorem linkGo_ok (recOk actOk : Nat → Bool) (phones : List (Str × Nat))
    (hrec : ∀ j, recOk j = true) :
    ∀ (acts : List LinkActRow) (i : Nat) (recs : List RecRow),
      ∃ v, linkGo recOk actOk phones i recs acts = Except.ok v := by
  intro acts
  induction acts with
  | nil => intro i recs; exact ⟨(recs, []), rfl⟩
  | cons r rest ih =>
    intro i recs
    cases hph : (r.phone != []) with
    | false =>
      obtain ⟨v, hv⟩ := ih (i + 1) recs
      refine ⟨(v.1, r :: v.2), ?_⟩
      simp only [linkGo, hph, Bool.false_eq_true, if_false, hv, exceptBind_ok]
      rfl
    | true =>
      cases hm : mGet? phones r.phone with
      | none =>
        obtain ⟨v, hv⟩ := ih (i + 1) recs
        refine ⟨(v.1, (if actOk i then { r with candidate := toL "לא" } else r) :: v.2), ?_⟩
        simp only [linkGo, hph, if_true, hm, update_row_safe_ok, exceptBind_ok, hv]
        rfl
      | some j =>
        obtain ⟨v, hv⟩ := ih (i + 1) (setLinked recs j [r.rid])
        refine ⟨(v.1, (if actOk i then { r with candidate := toL "כן" } else r) :: v.2), ?_⟩
        simp only [linkGo, hph, if_true, hm, hrec j, updateRow_true,
          update_row_safe_ok, exceptBind_ok, hv]
        rfl

theorem fillBirthdayGo_ok (engine : Str → List Str) (updOk : Nat → Bool) :
    ∀ (table : List BdRow) (i : Nat),
      ∃ t, fillBirthdayGo engine updOk i table = Except.ok t := by
  intro table
  induction table with
  | nil => intro i; exact ⟨[], rfl⟩
  | cons r rest ih =>
    intro i
    obtain ⟨t, ht⟩ := ih (i + 1)
    cases hfilt : bdFilter r with
    | false =>
      refine ⟨r :: t, ?_⟩
      simp only [fillBirthdayGo, hfilt, Bool.false_eq_true, if_false, ht,
        exceptBind_ok]
      rfl
    | true =>
      cases hq : engine r.id with
      | nil =>
        refine ⟨r :: t, ?_⟩
        simp only [fillBirthdayGo, hfilt, if_true, hq, ht, exceptBind_ok]
        rfl
      | cons bd bds =>
        refine ⟨(if updOk i then { r with bdate := formatBDate bd } else r) :: t, ?_⟩
        simp only [fillBirthdayGo, hfilt, if_true, hq, update_row_safe_ok,
          exceptBind_ok, ht]
        rfl

/-- C3 (amended): every row update performed through `update_row_safe` is
caught — the id-validation scan, the name fill, the birthdate fill, and the
phone-join fill (once its column lookup succeeded) always complete, and the
activist-side updates of the activist-recruitment linker never abort it,
whatever rows fail; the EXCEPTION is the recruitment-row back-reference
update inside the linker, which is invoked directly
(`recruitment_row.update()`), so the linker completes whenever all
recruitment-row updates succeed but a failing recruitment-row update aborts
the linking scan. -/
theorem row_update_isolation :
    (∀ ok, update_row_safe ok = Except.ok ()) ∧
    (∀ (updOk : Nat → Bool) (table : List ValRow),
        ∃ t, validate_ids updOk table = Except.ok t) ∧
    (∀ (rish elec : Option (Str → List (Str × Str))) (updOk : Nat → Nat → Bool)
        (table : List NameRow),
        ∃ v, fill_name_by_id rish elec updOk table = Except.ok v) ∧
    (∀ (engine : Str → List Str) (updOk : Nat → Bool) (table : List BdRow),
        ∃ t, fill_birthday_by_id engine updOk table = Except.ok t) ∧
    (∀ (registration_field : Str) (regRows : List Row) (acts : List ActRow)
        (full_run : Bool) (q : Option (Str → List Str)) (updOk : Nat → Bool)
        (base : DictS),
        build_phone_to_field_dict_from_table_rows registration_field regRows =
          Except.ok base →
        ∃ v, fill_field_from_registration_to_activists registration_field regRows
            acts full_run q updOk = Except.ok v) ∧
    (∀ (recOk actOk : Nat → Bool) (recs : List RecRow) (acts : List LinkActRow),
        (∀ j, recOk j = true) →
        ∃ v, link_activists_and_recruitments recOk actOk recs acts =
          Except.ok v) := by
  refine ⟨update_row_safe_ok, ?_, ?_, ?_, ?_, ?_⟩
  · intro updOk table
    exact validateGo_ok updOk table 0
  · intro rish elec updOk table
    unfold fill_name_by_id
    cases hb : (rish.isNone && elec.isNone) with
    | true => exact ⟨(table, []), rfl⟩
    | false =>
      obtain ⟨p, hp⟩ := fillNameGo_ok rish elec updOk table 0
      exact ⟨p, hp⟩
  · intro engine updOk table
    exact fillBirthdayGo_ok engine updOk table 0
  · intro registration_field regRows acts full_run q updOk base hb
    refine ⟨(fillGo q full_run updOk 0 base acts), ?_⟩
    unfold fill_field_from_registration_to_activists
    rw [hb]
    rfl
  · intro recOk actOk recs acts hrec
    exact linkGo_ok recOk actOk (recPhoneMap recs) hrec acts 0 recs

/-- C3 counterexample: a single failing recruitment-row update aborts the
whole linking scan with an uncaught error — refuting the claim that no
row-update failure aborts any enclosing scan. -/
theorem link_aborts_on_recruitment_update_failure_cex :
    link_activists_and_recruitments (fun _ => false) (fun _ => true)
        [⟨toL "p", []⟩] [⟨7, toL "p", []⟩, ⟨8, toL "q", []⟩] =
      Except.error "update failed" := rfl

/-- Witness for C3 at a concrete instance with succeeding recruitment
updates and a failing activist update. -/
theorem row_update_isolation_witness :
    ∃ v, link_activists_and_recruitments (fun _ => true) (fun _ => false)
        [⟨toL "p", []⟩] [⟨7, toL "p", []⟩] = Except.ok v :=
  row_update_isolation.2.2.2.2.2 (fun _ => true) (fun _ => false)
    [⟨toL "p", []⟩] [⟨7, toL "p", []⟩] (fun _ => rfl)

/-- C10: with neither a rishumon engine nor an elector engine supplied,
`fill_name_by_id` returns immediately: no row is fetched or written, no
engine is queried, and the table state is unchanged (empty write log). -/
theorem fill_name_noop_without_engines (updOk : Nat → Nat → Bool)
    (table : List NameRow) :
    fill_name_by_id none none updOk table = Except.ok (table, []) := rfl

theorem processNameRow_writes_eq (rish elec : Option (Str → List (Str × Str)))
    (ok1 ok2 : Bool) (i : Nat) (r : NameRow) (p : NameRow × List (Nat × Nat × Str))
    (h : processNameRow rish elec ok1 ok2 i r = Except.ok p) :
    p.2 = (match rish with
           | some f => [(i, 0, engineVal f r.id)]
           | none => []) ++
          (match elec with
           | some g => [(i, 1, engineVal g r.id)]
           | none => []) := by
  cases rish <;> cases elec <;> cases ok1 <;> cases ok2 <;>
    (injection h with h1; subst h1; rfl)

theorem processNameRow_spec (rish elec : Option (Str → List (Str × Str)))
    (ok1 ok2 : Bool) (i : Nat) (r : NameRow) (p : NameRow × List (Nat × Nat × Str))
    (h : processNameRow rish elec ok1 ok2 i r = Except.ok p) :
    ∀ w ∈ p.2, w.1 = i ∧
      (w.2.1 = 0 → ∃ f, rish = some f ∧ w.2.2 = engineVal f r.id) ∧
      (w.2.1 = 1 → ∃ f, elec = some f ∧ w.2.2 = engineVal f r.id) := by
  intro w hw
  rw [processNameRow_writes_eq rish elec ok1 ok2 i r p h] at hw
  rcases List.mem_append.mp hw with h1 | h1
  · cases rish with
    | none => exact absurd h1 (List.not_mem_nil w)
    | some f =>
      simp only [List.mem_singleton] at h1
      subst h1
      refine ⟨rfl, fun _ => ⟨f, rfl, rfl⟩, fun h10 => ?_⟩
      simp at h10
  · cases elec with
    | none => exact absurd h1 (List.not_mem_nil w)
    | some g =>
      simp only [List.mem_singleton] at h1
      subst h1
      refine ⟨rfl, fun h10 => ?_, fun _ => ⟨g, rfl, rfl⟩⟩
      simp at h10

theorem fillNameGo_writes (rish elec : Option (Str → List (Str × Str)))
    (updOk : Nat → Nat → Bool) :
    ∀ (l : List NameRow) (i : Nat) (T : List NameRow) (ws : List (Nat × Nat × Str)),
      fillNameGo rish elec updOk i l = Except.ok (T, ws) →
      ∀ w ∈ ws, i ≤ w.1 ∧ ∃ r, l.get? (w.1 - i) = some r ∧
        nameFilter rish.isSome elec.isSome r = true ∧
        compute_id_control_digit r.id = some 0 ∧
        (w.2.1 = 0 → ∃ f, rish = some f ∧ w.2.2 = engineVal f r.id) ∧
        (w.2.1 = 1 → ∃ f, elec = some f ∧ w.2.2 = engineVal f r.id) := by
  intro l
  induction l with
  | nil =>
    intro i T ws h w hw
    have h2 : (([], []) : List NameRow × List (Nat × Nat × Str)) = (T, ws) := by
      injection h
    injection h2 with _ h3
    rw [← h3] at hw
    exact absurd hw (List.not_mem_nil w)
  | cons r rest ih =>
    intro i T ws h w hw
    cases hfilt : nameFilter rish.isSome elec.isSome r with
    | false =>
      have hstep : fillNameGo rish elec updOk i (r :: rest) =
          (do let res ← fillNameGo rish elec updOk (i + 1) rest
              pure (r :: res.1, res.2)) := by
        simp only [fillNameGo, hfilt, Bool.false_eq_true, if_false]
      rw [hstep] at h
      cases hrec : fillNameGo rish elec updOk (i + 1) rest with
      | error e => rw [hrec] at h; exact Except.noConfusion h
      | ok res =>
        rw [hrec, exceptBind_ok] at h
        have h2 : ((r :: res.1, res.2) : List NameRow × List (Nat × Nat × Str)) =
            (T, ws) := by injection h
        injection h2 with _ h3
        rw [← h3] at hw
        obtain ⟨hle, rr, hget, hrest⟩ := ih (i + 1) res.1 res.2 hrec w hw
        refine ⟨by omega, rr, ?_, hrest⟩
        have harith : w.1 - i = (w.1 - (i + 1)) + 1 := by omega
        rw [harith, List.get?_cons_succ]
        exact hget
    | true =>
      cases hcid : compute_id_control_digit r.id with
      | none =>
        have hstep : fillNameGo rish elec updOk i (r :: rest) =
            (do let res ← fillNameGo rish elec updOk (i + 1) rest
                pure (r :: res.1, res.2)) := by
          simp only [fillNameGo, hfilt, if_true, hcid]
        rw [hstep] at h
        cases hrec : fillNameGo rish elec updOk (i + 1) rest with
        | error e => rw [hrec] at h; exact Except.noConfusion h
        | ok res =>
          rw [hrec, exceptBind_ok] at h
          have h2 : ((r :: res.1, res.2) : List NameRow × List (Nat × Nat × Str)) =
              (T, ws) := by injection h
          injection h2 with _ h3
          rw [← h3] at hw
          obtain ⟨hle, rr, hget, hrest⟩ := ih (i + 1) res.1 res.2 hrec w hw
          refine ⟨by omega, rr, ?_, hrest⟩
          have harith : w.1 - i = (w.1 - (i + 1)) + 1 := by omega
          rw [harith, List.get?_cons_succ]
          exact hget
      | some v =>
        by_cases hv : v ≠ 0
        · have hstep : fillNameGo rish elec updOk i (r :: rest) =
              (do let res ← fillNameGo rish elec updOk (i + 1) rest
                  pure (r :: res.1, res.2)) := by
            simp only [fillNameGo, hfilt, if_true, hcid]
            rw [if_pos hv]
          rw [hstep] at h
          cases hrec : fillNameGo rish elec updOk (i + 1) rest with
          | error e => rw [hrec] at h; exact Except.noConfusion h
          | ok res =>
            rw [hrec, exceptBind_ok] at h
            have h2 : ((r :: res.1, res.2) : List NameRow × List (Nat × Nat × Str)) =
                (T, ws) := by injection h
            injection h2 with _ h3
            rw [← h3] at hw
            obtain ⟨hle, rr, hget, hrest⟩ := ih (i + 1) res.1 res.2 hrec w hw
            refine ⟨by omega, rr, ?_, hrest⟩
            have harith : w.1 - i = (w.1 - (i + 1)) + 1 := by omega
            rw [harith, List.get?_cons_succ]
            exact hget
        · have hv0 : v = 0 := by omega
          subst hv0
          have hstep : fillNameGo rish elec updOk i (r :: rest) =
              (do let pr ← processNameRow rish elec (updOk i 0) (updOk i 1) i r
                  let res ← fillNameGo rish elec updOk (i + 1) rest
                  pure (pr.1 :: res.1, pr.2 ++ res.2)) := by
            simp only [fillNameGo, hfilt, if_true, hcid]
            rw [if_neg hv]
          rw [hstep] at h
          cases hpr : processNameRow rish elec (updOk i 0) (updOk i 1) i r with
          | error e => rw [hpr] at h; exact Except.noConfusion h
          | ok pr =>
            rw [hpr, exceptBind_ok] at h
            cases hrec : fillNameGo rish elec updOk (i + 1) rest with
            | error e => rw [hrec] at h; exact Except.noConfusion h
            | ok res =>
              rw [hrec, exceptBind_ok] at h
              have h2 : ((pr.1 :: res.1, pr.2 ++ res.2) :
                  List NameRow × List (Nat × Nat × Str)) = (T, ws) := by injection h
              injection h2 with _ h3
              rw [← h3] at hw
              rcases List.mem_append.mp hw with hw1 | hw2
              · obtain ⟨hwi, htag0, htag1⟩ :=
                  processNameRow_spec rish elec (updOk i 0) (updOk i 1) i r pr hpr w hw1
                refine ⟨by omega, r, ?_, hfilt, hcid, htag0, htag1⟩
                have : w.1 - i = 0 := by omega
                rw [this]
                rfl
              · obtain ⟨hle, rr, hget, hrest⟩ := ih (i + 1) res.1 res.2 hrec w hw2
                refine ⟨by omega, rr, ?_, hrest⟩
                have harith : w.1 - i = (w.1 - (i + 1)) + 1 := by omega
                rw [harith, List.get?_cons_succ]
                exact hget

theorem nameFilter_true_elim (rs es : Bool) (r : NameRow)
    (h : nameFilter rs es r = true) :
    r.id ≠ [] ∧ (rs = true → es = false → r.rish = []) ∧
      (rs = false → es = true → r.elec = []) := by
  unfold nameFilter at h
  rw [Bool.and_eq_true] at h
  refine ⟨bne_iff_ne.mp h.1, ?_, ?_⟩
  · intro hrs hes
    have h2 := h.2
    rw [hrs, hes] at h2
    simp at h2
    exact h2
  · intro hrs hes
    have h2 := h.2
    rw [hrs, hes] at h2
    simp at h2
    exact h2

/-- C4 (amended): every field write performed by `fill_name_by_id` targets an
activist row whose ID field is non-empty and checksum-valid, and the value
written is "{first} {last}" from the first query result or the literal
"NOT FOUND" when the query returns no result; when exactly one engine is
supplied, only rows whose corresponding name field is currently missing are
processed — but when BOTH engines are supplied no name-empty filter is
applied, so rows with already-filled name fields are processed and
overwritten. -/
theorem fill_name_writes_conditions (rish elec : Option (Str → List (Str × Str)))
    (updOk : Nat → Nat → Bool) (table T : List NameRow)
    (ws : List (Nat × Nat × Str))
    (h : fill_name_by_id rish elec updOk table = Except.ok (T, ws)) :
    ∀ w ∈ ws, nameWriteOk rish elec table w := by
  cases rish with
  | none =>
    cases elec with
    | none =>
      have h2 : ((table, []) : List NameRow × List (Nat × Nat × Str)) = (T, ws) := by
        injection h
      injection h2 with _ h3
      intro w hw
      rw [← h3] at hw
      exact absurd hw (List.not_mem_nil w)
    | some g =>
      have h' : fillNameGo none (some g) updOk 0 table = Except.ok (T, ws) := h
      intro w hw
      obtain ⟨hle, r, hget, hfilt, hcid, htag0, htag1⟩ :=
        fillNameGo_writes none (some g) updOk table 0 T ws h' w hw
      rw [Nat.sub_zero] at hget
      obtain ⟨hid, _, helim⟩ := nameFilter_true_elim _ _ r hfilt
      refine ⟨r, hget, hid, hcid, ?_, ?_, htag0, htag1⟩
      · intro he
        exact absurd he (by simp)
      · intro _
        exact helim rfl rfl
  | some f =>
    cases elec with
    | none =>
      have h' : fillNameGo (some f) none updOk 0 table = Except.ok (T, ws) := h
      intro w hw
      obtain ⟨hle, r, hget, hfilt, hcid, htag0, htag1⟩ :=
        fillNameGo_writes (some f) none updOk table 0 T ws h' w hw
      rw [Nat.sub_zero] at hget
      obtain ⟨hid, helim, _⟩ := nameFilter_true_elim _ _ r hfilt
      refine ⟨r, hget, hid, hcid, ?_, ?_, htag0, htag1⟩
      · intro _
        exact helim rfl rfl
      · intro he
        exact absurd he (by simp)
    | some g =>
      have h' : fillNameGo (some f) (some g) updOk 0 table = Except.ok (T, ws) := h
      intro w hw
      obtain ⟨hle, r, hget, hfilt, hcid, htag0, htag1⟩ :=
        fillNameGo_writes (some f) (some g) updOk table 0 T ws h' w hw
      rw [Nat.sub_zero] at hget
      obtain ⟨hid, _, _⟩ := nameFilter_true_elim _ _ r hfilt
      refine ⟨r, hget, hid, hcid, ?_, ?_, htag0, htag1⟩
      · intro he
        exact absurd he (by simp)
      · intro he
        exact absurd he (by simp)

/-- C4 counterexample: with BOTH engines supplied, a row whose rishumon and
elector name fields are already filled ("X" and "Y") is still processed —
both names are overwritten — refuting the claim that rows with an
already-filled name field are not processed. -/
theorem fill_name_overwrites_filled_names_cex :
    fill_name_by_id (some (fun _ => [(toL "A", toL "B")])) (some (fun _ => []))
        (fun _ _ => true) [⟨toL "000000000", toL "X", toL "Y"⟩] =
      Except.ok ([⟨toL "000000000", toL "A B", toL "NOT FOUND"⟩],
        [(0, 0, toL "A B"), (0, 1, toL "NOT FOUND")]) ∧
    toL "X" ≠ [] ∧ toL "Y" ≠ [] :=
  ⟨rfl, by decide, by decide⟩

/-- Witness for C4 at the concrete both-engines run, at its first write. -/
theorem fill_name_writes_conditions_witness :
    nameWriteOk (some (fun _ => [(toL "A", toL "B")])) (some (fun _ => []))
      [⟨toL "000000000", toL "X", toL "Y"⟩] ((0 : Nat), (0 : Nat), toL "A B") :=
  fill_name_writes_conditions (some (fun _ => [(toL "A", toL "B")]))
    (some (fun _ => [])) (fun _ _ => true) [⟨toL "000000000", toL "X", toL "Y"⟩]
    [⟨toL "000000000", toL "A B", toL "NOT FOUND"⟩]
    [(0, 0, toL "A B"), (0, 1, toL "NOT FOUND")] rfl
    ((0 : Nat), (0 : Nat), toL "A B") (by decide)

theorem countGet_bump (d : List (Str × Nat)) (k t : Str) :
    countGet (bump d k) t = countGet d t + (if t = k then 1 else 0) := by
  unfold bump
  cases hhas : (d.find? (fun p => p.1 == k)).isSome with
  | true =>
    simp only [hhas, if_true]
    unfold countGet
    rw [List.find?_map]
    have hcomp : ((fun p : Str × Nat => p.1 == t) ∘
        (fun p => if p.1 == k then (p.1, p.2 + 1) else p)) =
        (fun p : Str × Nat => p.1 == t) := by
      funext p
      by_cases h : p.1 = k <;> simp [h]
    rw [hcomp]
    cases hf : d.find? (fun p => p.1 == t) with
    | none =>
      have hne : t ≠ k := by
        intro hk
        subst hk
        rw [hf] at hhas
        simp at hhas
      simp [hne]
    | some p =>
      have hp : p.1 = t := by
        have := List.find?_some hf
        rwa [beq_iff_eq] at this
      simp only [Option.map_some]
      by_cases hk : t = k
      · have hpk : p.1 = k := by rw [hp]; exact hk
        simp [hpk, hk]
      · have hpk : ¬(p.1 = k) := by rw [hp]; exact hk
        simp [hpk, hk]
  | false =>
    simp only [Bool.false_eq_true, if_false]
    unfold countGet
    rw [List.find?_append]
    cases hf : d.find? (fun p => p.1 == t) with
    | none =>
      simp only [Option.none_or]
      by_cases hk : t = k
      · have hb : (k == t) = true := by rw [beq_iff_eq]; exact hk.symm
        simp [List.find?, hb, hk]
      · have hb : (k == t) = false := by
          rw [beq_eq_false_iff_ne]
          exact fun h => hk h.symm
        simp [List.find?, hb, hk]
    | some p =>
      simp only [Option.or]
      by_cases hk : t = k
      · exfalso
        subst hk
        rw [hf] at hhas
        simp at hhas
      · simp [hk]

theorem countGet_reportGo (today : DateD) :
    ∀ (regs : List RegRow) (dic : List (Str × Nat)) (t : Str),
      countGet (reportGo today dic regs) t =
        countGet dic t +
          (regs.filter (fun reg => keptReg today reg && reg.training == t)).length := by
  intro regs
  induction regs with
  | nil => intro dic t; simp [reportGo]
  | cons reg rest ih =>
    intro dic t
    cases hp : parse_date reg.submission with
    | none =>
      have hk : keptReg today reg = false := by unfold keptReg; rw [hp]
      have hstep : reportGo today dic (reg :: rest) = reportGo today dic rest := by
        simp only [reportGo, hp]
      rw [hstep, ih]
      simp [List.filter_cons, hk]
    | some dt =>
      cases hlt : dateLt dt.date (subTwoMonths today) with
      | true =>
        have hk : keptReg today reg = false := by
          simp only [keptReg, hp, hlt, Bool.not_true]
        have hstep : reportGo today dic (reg :: rest) = reportGo today dic rest := by
          simp only [reportGo, hp, hlt, if_true]
        rw [hstep, ih]
        simp [List.filter_cons, hk]
      | false =>
        have hk : keptReg today reg = true := by
          simp only [keptReg, hp, hlt, Bool.not_false]
        have hstep : reportGo today dic (reg :: rest) =
            reportGo today (bump dic reg.training) rest := by
          simp only [reportGo, hp, hlt, Bool.false_eq_true, if_false]
        rw [hstep, ih, countGet_bump]
        rw [List.filter_cons]
        by_cases ht : reg.training = t
        · have hb : (keptReg today reg && reg.training == t) = true := by
            rw [hk, Bool.true_and, beq_iff_eq]
            exact ht
          simp [hb, ht, hk]
          omega
        · have hb : (keptReg today reg && reg.training == t) = false := by
            rw [hk, Bool.true_and, beq_eq_false_iff_ne]
            exact ht
          have ht2 : ¬(t = reg.training) := fun hc => ht hc.symm
          simp [hb, ht2]

/-- C8: the training participation report skips every registration whose
submission timestamp parses under none of the known formats, discards every
registration dated strictly older than two months before today, and tallies
the rest keyed by training name — for every training name the reported count
is the number of kept registrations carrying it; in particular, with today
2025-06-15, three registrations for "A" dated today, today and four months
ago plus one registration for "B" dated today yield the counts A ↦ 2, B ↦ 1. -/
theorem training_counts_correct :
    (∀ (today : DateD) (regs : List RegRow) (t : Str),
        countGet (getTrainingParticipantCounts today regs) t =
          (regs.filter (fun reg =>
            keptReg today reg && reg.training == t)).length) ∧
    getTrainingParticipantCounts ⟨2025, 6, 15⟩
        [⟨toL "2025-06-15T10:00:00Z", toL "A"⟩,
         ⟨toL "2025-06-15T10:00:00Z", toL "A"⟩,
         ⟨toL "2025-02-15T10:00:00Z", toL "A"⟩,
         ⟨toL "2025-06-15T10:00:00Z", toL "B"⟩] =
      [(toL "A", 2), (toL "B", 1)] := by
  constructor
  · intro today regs t
    unfold getTrainingParticipantCounts
    rw [countGet_reportGo today regs [] t]
    simp [countGet]
  · rfl
